import Mathlib

/-!
Shallow embedding of the polymer-linter core: the edit application engine
(`applyEdits`, `canApply`, `doRangesOverlap` from the warning module), the
linter orchestration (`Linter.lint`, `_lintDocuments`,
`filterLintWarningsByDirective`), and the rule registry (`LintRegistry`).
Development proceeds in two parts: first the executable definitions
translated from the source, then the theorems about them.
-/

namespace PolymerLint

/-! ## Source positions and ranges (data model) -/

structure SourcePosition where
  line : Nat
  column : Nat
deriving DecidableEq, Repr

structure SourceRange where
  file : String
  start : SourcePosition
  end_ : SourcePosition
deriving DecidableEq, Repr

/-- Modelled from the spec: the external analyzer's `comparePositionAndRange`
(consumed by the linter and the edit engine; the analyzer itself is outside
this repository).  Compares a position against a range, line first and then
column; returns -1 when the position is before the range, 1 when after, 0
when inside.  When `includeEdges` is false the range's own endpoints count
as outside the range. -/
def comparePositionAndRange (position : SourcePosition) (range : SourceRange)
    (includeEdges : Bool) : Int :=
  if position.line < range.start.line then -1
  else if position.line > range.end_.line then 1
  else if position.line = range.start.line ∧
      (if includeEdges then position.column < range.start.column
       else position.column ≤ range.start.column) then -1
  else if position.line = range.end_.line ∧
      (if includeEdges then position.column > range.end_.column
       else position.column ≥ range.end_.column) then 1
  else 0

/-- Modelled from the spec: the external analyzer's `isPositionInsideRange`,
true exactly when `comparePositionAndRange` returns 0. -/
def isPositionInsideRange (position : SourcePosition) (range : SourceRange)
    (includeEdges : Bool) : Bool :=
  comparePositionAndRange position range includeEdges == 0

/-! ## Warnings, directives, documents (data model) -/

inductive Severity where
  | ERROR
  | WARNING
deriving DecidableEq, Repr

structure Warning where
  code : String
  message : String
  severity : Severity
  sourceRange : SourceRange
deriving DecidableEq, Repr

structure PolymerLintDirective where
  sourceRange : SourceRange
  args : List String
deriving DecidableEq, Repr

/-! ## Replacements, edits, the edit result -/

structure Replacement where
  range : SourceRange
  replacementText : List Char
deriving DecidableEq, Repr

/-- An Edit is an array of Replacements. -/
abbrev Edit := List Replacement

structure EditResult where
  appliedEdits : List Edit
  incompatibleEdits : List Edit
  editedFiles : List (String × List Char)
deriving DecidableEq, Repr

/-- `areRangesEqual` from the warning module: compares the four endpoint
coordinates (the file is checked by the caller). -/
def areRangesEqual (a b : SourceRange) : Bool :=
  a.start.line == b.start.line && a.start.column == b.start.column &&
    a.end_.line == b.end_.line && a.end_.column == b.end_.column

/-- `doRangesOverlap` from the warning module. -/
def doRangesOverlap (a b : SourceRange) : Bool :=
  if a.file ≠ b.file then false
  else
    areRangesEqual a b || isPositionInsideRange a.start b false ||
      isPositionInsideRange a.end_ b false ||
      isPositionInsideRange b.start a false ||
      isPositionInsideRange b.end_ a false

/-- The check of one replacement of an edit against every replacement of every
already accepted edit (the inner loops of `canApply`). -/
def replacementConflictsWithResult (replacement : Replacement)
    (soFar : EditResult) : Bool :=
  soFar.appliedEdits.any fun acceptedEdit =>
    acceptedEdit.any fun acceptedReplacement =>
      doRangesOverlap replacement.range acceptedReplacement.range

/-- The loop of `canApply`: each replacement is checked against all accepted
replacements and against the replacements before it in the same edit. -/
def canApplyGo (soFar : EditResult) :
    (earlier rest : List Replacement) → Bool
  | _, [] => true
  | earlier, replacement :: rest =>
    if replacementConflictsWithResult replacement soFar then false
    else if earlier.any fun prev => doRangesOverlap replacement.range prev.range
      then false
    else canApplyGo soFar (earlier ++ [replacement]) rest

/-- `canApply` from the warning module: an edit can be applied when none of
its replacements overlaps an accepted replacement and no two of its own
replacements overlap. -/
def canApply (edit : Edit) (soFar : EditResult) : Bool :=
  canApplyGo soFar [] edit

/-- One step of the acceptance loop of `applyEdits`. -/
def acceptEdit (result : EditResult) (edit : Edit) : EditResult :=
  if canApply edit result then
    { result with appliedEdits := result.appliedEdits ++ [edit] }
  else
    { result with incompatibleEdits := result.incompatibleEdits ++ [edit] }

/-- Insertion into the `replacementsByFile` map of `applyEdits`: a JS `Map`
keeps keys in insertion order and appends to the per-file array. -/
def addToGroup (groups : List (String × List Replacement)) (file : String)
    (replacement : Replacement) : List (String × List Replacement) :=
  match groups with
  | [] => [(file, [replacement])]
  | (f, rs) :: rest =>
    if f = file then (f, rs ++ [replacement]) :: rest
    else (f, rs) :: addToGroup rest file replacement

/-- Grouping the accepted replacements by file (`replacementsByFile`). -/
def groupReplacementsByFile (replacements : List Replacement) :
    List (String × List Replacement) :=
  replacements.foldl (fun groups r => addToGroup groups r.range.file r) []

/-- The document shape the edit engine loads: current contents plus the
range-to-offsets conversion (the `ParsedDocument` surface it uses). -/
structure ParsedDocument where
  contents : List Char
  sourceRangeToOffsets : SourceRange → Nat × Nat

/-- The sort comparator of `applyEdits`: descending by position, so that
replacements are applied from the end of the document backwards. -/
def replacementCompare (a b : Replacement) : Int :=
  let leftEdgeComp := comparePositionAndRange b.range.start a.range true
  if leftEdgeComp ≠ 0 then leftEdgeComp
  else comparePositionAndRange b.range.end_ a.range false

/-- Stable insertion of an element into an already sorted list: the new
element goes after every existing element it does not strictly precede. -/
def insertSorted (a : Replacement) : List Replacement → List Replacement
  | [] => [a]
  | b :: l =>
    if replacementCompare a b < 0 then a :: b :: l else b :: insertSorted a l

/-- The JS `Array.prototype.sort` call on the per-file replacements,
modelled as a stable insertion sort (`Array.prototype.sort` is stable). -/
def sortReplacements (replacements : List Replacement) : List Replacement :=
  replacements.foldl (fun sorted a => insertSorted a sorted) []

/-- One splice of `applyEdits`:
`contents.slice(0, start) + replacementText + contents.slice(end)`. -/
def spliceReplacement (document : ParsedDocument) (contents : List Char)
    (replacement : Replacement) : List Char :=
  let offsets := document.sourceRangeToOffsets replacement.range
  contents.take offsets.1 ++ replacement.replacementText ++
    contents.drop offsets.2

/-- `applyEdits` from the warning module.  The loader is the only external
dependency; the async boundary is dropped in the embedding. -/
def applyEdits (edits : List Edit) (loader : String → ParsedDocument) :
    EditResult :=
  let result := edits.foldl acceptEdit ⟨[], [], []⟩
  let replacementsByFile :=
    groupReplacementsByFile (result.appliedEdits.foldl (fun acc e => acc ++ e) [])
  let editedFiles := replacementsByFile.map fun entry =>
    let document := loader entry.1
    let sorted := sortReplacements entry.2
    (entry.1, sorted.foldl (spliceReplacement document) document.contents)
  { result with editedFiles := editedFiles }

/-! ## Spec-side formulation of the conflict rule (for the refinement claims).
These definitions follow the words of the specification, to be compared with
the definitions above that come from the source. -/

/-- Spec-side strict order on positions: line first, then column. -/
def posLt (a b : SourcePosition) : Prop :=
  a.line < b.line ∨ (a.line = b.line ∧ a.column < b.column)

instance (a b : SourcePosition) : Decidable (posLt a b) := by
  unfold posLt; infer_instance

/-- Spec-side reflexive order on positions. -/
def posLe (a b : SourcePosition) : Prop :=
  posLt a b ∨ a = b

instance (a b : SourcePosition) : Decidable (posLe a b) := by
  unfold posLe; infer_instance

/-- Spec-side: a position lies strictly inside a range. -/
def strictlyInside (p : SourcePosition) (r : SourceRange) : Prop :=
  posLt r.start p ∧ posLt p r.end_

instance (p : SourcePosition) (r : SourceRange) :
    Decidable (strictlyInside p r) := by
  unfold strictlyInside; infer_instance

/-- Spec-side conflict rule: two replacements conflict iff they are in the
same file and their ranges are equal or an endpoint of one lies strictly
inside the other. -/
def specConflict (a b : SourceRange) : Prop :=
  a.file = b.file ∧
    ((a.start = b.start ∧ a.end_ = b.end_) ∨ strictlyInside a.start b ∨
      strictlyInside a.end_ b ∨ strictlyInside b.start a ∨
      strictlyInside b.end_ a)

instance (a b : SourceRange) : Decidable (specConflict a b) := by
  unfold specConflict; infer_instance

/-- Spec-side acceptability of an edit against the list of edits accepted so
far: no two replacements within the edit conflict, and none of its
replacements conflicts with a replacement of an accepted edit. -/
def specEditOk (edit : Edit) (accepted : List Edit) : Prop :=
  edit.Pairwise (fun a b => ¬ specConflict a.range b.range) ∧
    ∀ r ∈ edit, ∀ e ∈ accepted, ∀ r' ∈ e, ¬ specConflict r.range r'.range

instance (edit : Edit) (accepted : List Edit) :
    Decidable (specEditOk edit accepted) := by
  unfold specEditOk; exact instDecidableAnd

/-- Spec-side first-come-first-served acceptance fold. -/
def specFoldStep (acc : List Edit × List Edit) (edit : Edit) :
    List Edit × List Edit :=
  if specEditOk edit acc.1 then (acc.1 ++ [edit], acc.2)
  else (acc.1, acc.2 ++ [edit])

/-- Spec-side partition of the input edit list into accepted and rejected. -/
def specApply (edits : List Edit) : List Edit × List Edit :=
  edits.foldl specFoldStep ([], [])

/-- Spec-side simultaneous substitution over a document's original contents:
given replacements listed lowest first, each one contributes its text in
place of exactly the slice of the ORIGINAL contents between its two offsets;
`i` is the position up to which the original has already been consumed. -/
def simultaneousSplice (document : ParsedDocument) :
    Nat → List Replacement → List Char
  | i, [] => document.contents.drop i
  | i, r :: rest =>
    ((document.contents.take
        (document.sourceRangeToOffsets r.range).1).drop i) ++
      r.replacementText ++
      simultaneousSplice document (document.sourceRangeToOffsets r.range).2
        rest

/-- Spec-side statement that a list of replacements (lowest first) is mapped
by the document to in-bounds, pairwise-disjoint offset intervals in
ascending order starting at `i`: the offset-level reading of a set of
pairwise non-conflicting replacements on one file. -/
def offsetsAscending (document : ParsedDocument) :
    Nat → List Replacement → Bool
  | i, [] => decide (i ≤ document.contents.length)
  | i, r :: rest =>
    decide (i ≤ (document.sourceRangeToOffsets r.range).1) &&
      decide ((document.sourceRangeToOffsets r.range).1 ≤
        (document.sourceRangeToOffsets r.range).2) &&
      offsetsAscending document (document.sourceRangeToOffsets r.range).2
        rest

/-- A replacement whose text equals exactly the text its range covers in the
given document (its offsets taken in order). -/
def replacementIsNoop (document : ParsedDocument) (r : Replacement) : Prop :=
  (document.sourceRangeToOffsets r.range).1 ≤
      (document.sourceRangeToOffsets r.range).2 ∧
    r.replacementText =
      (document.contents.take (document.sourceRangeToOffsets r.range).2).drop
        (document.sourceRangeToOffsets r.range).1

instance (document : ParsedDocument) (r : Replacement) :
    Decidable (replacementIsNoop document r) := by
  unfold replacementIsNoop; infer_instance

/-! ## Linter orchestration -/

/-- The document surface the linter consumes: its url, the warnings the
external analyzer already attached to it (`getWarnings()`), and the
`polymer-lint` directives discovered in it (`getFeatures`). -/
structure Document where
  url : String
  warnings : List Warning
  directives : List PolymerLintDirective

/-- A thrown rule failure: either a `WarningCarryingException` or any other
error (of which only the message is consumed). -/
inductive LintError where
  | warningCarrying (warning : Warning)
  | other (message : String)

/-- The message of a thrown value, as read by the catch block. -/
def LintError.message : LintError → String
  | .warningCarrying warning => warning.message
  | .other message => message

namespace Linter

/-- A lint rule as the linter consumes it: identity plus `check`.  The
fallible async `check` becomes a function into `Except`. -/
structure Rule where
  code : String
  description : String
  check : Document → Except LintError (List Warning)

end Linter

/-- `filterDirectivesByCode`: the directives relevant to a code are those
with a single argument (the bare verb, applying to every rule) or those
explicitly listing the code after the verb. -/
def filterDirectivesByCode (directives : List PolymerLintDirective)
    (code : String) : List PolymerLintDirective :=
  directives.filter fun directive =>
    directive.args.length == 1 || (directive.args.drop 1).contains code

/-- `filterLintWarningsByDirective`: a warning survives iff folding over its
relevant directives, starting from `true`, ends in `true`; a directive in the
same file whose range ends before the warning flips the state to the value of
its verb test (`args[0] === 'enable'`). -/
def filterLintWarningsByDirective (warnings : List Warning)
    (directives : List PolymerLintDirective) : List Warning :=
  warnings.filter fun warning =>
    (filterDirectivesByCode directives warning.code).foldl
      (fun isValid directive =>
        let directiveEffect := directive.args.head? == some "enable"
        let isDirectiveInSameFile :=
          directive.sourceRange.file == warning.sourceRange.file
        let isDirectiveBeforeWarning :=
          comparePositionAndRange directive.sourceRange.end_
              warning.sourceRange true == -1
        if isDirectiveInSameFile && isDirectiveBeforeWarning then
          directiveEffect
        else isValid)
      true

/-- `Linter._getWarningFromError`: a warning-carrying failure surfaces its
warning verbatim; anything else becomes a synthetic warning with the given
code and message and a zero-width range at the document start. -/
def getWarningFromError (e : LintError) (file : String)
    (code message : String) : Warning :=
  match e with
  | .warningCarrying warning => warning
  | .other _ =>
    { code := code, message := message, severity := .WARNING,
      sourceRange := { file := file, start := ⟨0, 0⟩, end_ := ⟨0, 0⟩ } }

/-- The rule loop of `Linter._lintDocuments` for one document: accumulates
the successful rules' warnings (first component) and the warnings converted
from failures (second component), each in rule order. -/
def checkRules (rules : List Linter.Rule) (document : Document) :
    List Warning × List Warning :=
  rules.foldl
    (fun acc rule =>
      match rule.check document with
      | .ok ws => (acc.1 ++ ws, acc.2)
      | .error e =>
        (acc.1,
          acc.2 ++ [getWarningFromError e document.url "internal-lint-error"
            ("Internal error during linting: " ++ e.message)]))
    ([], [])

/-- `Linter._lintDocuments`: per document, failure warnings go straight to
the verified list; the rules' own warnings pass through the directive filter
when the document has directives. -/
def lintDocuments (rules : List Linter.Rule) (documents : List Document) :
    List Warning :=
  documents.foldl
    (fun verifiedWarnings document =>
      let checked := checkRules rules document
      let directives := document.directives
      verifiedWarnings ++ checked.2 ++
        (if directives.isEmpty then checked.1
         else filterLintWarningsByDirective checked.1 directives))
    []

/-- The analyzer surface `Linter.lint` consumes: url resolution plus, per
resolved url, either a document or an analysis warning (the two shapes
`analysis.getDocument` can produce), or nothing. -/
structure Analyzer where
  resolveUrl : String → String
  getDocument : String → Option (Document ⊕ Warning)

/-- `Linter._analyzeAll`: split the per-file analysis results into documents
and warnings, in input order. -/
def analyzeAll (analyzer : Analyzer) (files : List String) :
    List Document × List Warning :=
  files.foldl
    (fun acc file =>
      match analyzer.getDocument (analyzer.resolveUrl file) with
      | none => acc
      | some (.inl document) => (acc.1 ++ [document], acc.2)
      | some (.inr warning) => (acc.1, acc.2 ++ [warning]))
    ([], [])

/-- `Linter.lint`: analysis warnings, then each document's analyzer-attached
warnings, then the outcome of running the rules. -/
def lint (rules : List Linter.Rule) (analyzer : Analyzer)
    (files : List String) : List Warning :=
  let analyzed := analyzeAll analyzer files
  let warnings :=
    analyzed.2 ++ analyzed.1.foldl (fun acc d => acc ++ d.warnings) []
  warnings ++ lintDocuments rules analyzed.1

/-! ## Spec-side formulation of the directive filter -/

/-- Spec-side relevance of a directive to a warning code: no explicit code
list, or the code explicitly listed. -/
def specRelevant (directive : PolymerLintDirective) (code : String) : Prop :=
  directive.args.drop 1 = [] ∨ code ∈ directive.args.drop 1

instance (directive : PolymerLintDirective) (code : String) :
    Decidable (specRelevant directive code) := by
  unfold specRelevant; infer_instance

/-- Spec-side directive fold: starting from `true`, every relevant directive
in the warning's file whose range ends strictly before the warning's range
begins sets the state to the value of its verb; all others leave it. -/
def specKeepsWarning (warning : Warning)
    (directives : List PolymerLintDirective) : Bool :=
  (directives.filter fun d => decide (specRelevant d warning.code)).foldl
    (fun isValid directive =>
      if directive.sourceRange.file = warning.sourceRange.file ∧
          posLt directive.sourceRange.end_ warning.sourceRange.start then
        directive.args.head? == some "enable"
      else isValid)
    true

/-! ## The rule registry -/

namespace Registry

/-- A rule as the registry stores it (identity only; the registry never runs
checks). -/
structure Rule where
  code : String
  description : String
deriving DecidableEq, Repr

/-- A named collection of rule (or collection) codes. -/
structure RuleCollection where
  code : String
  description : String
  rules : List String
deriving DecidableEq, Repr

/-- The `Rule | RuleCollection` union stored in the registry map. -/
inductive Entry where
  | rule (r : Rule)
  | collection (c : RuleCollection)
deriving DecidableEq, Repr

/-- The code under which an entry registers itself. -/
def Entry.code : Entry → String
  | .rule r => r.code
  | .collection c => c.code

/-- The registry's map from code to rule or collection, as an
insertion-ordered association list. -/
structure LintRegistry where
  all : List (String × Entry)
deriving DecidableEq, Repr

inductive RegistryError where
  | notFound (code : String)
  | duplicate (code : String)
  | outOfFuel
deriving DecidableEq, Repr

/-- `results.add(rule)` on a JS `Set`: append when not yet present. -/
def addRule (results : List Rule) (rule : Rule) : List Rule :=
  if rule ∈ results then results else results ++ [rule]

/-- The loop of `LintRegistry._getRules`: expand each code in turn with the
given expansion function, threading the visited set and accumulating the
result set. -/
def getRulesLoop
    (forCode : String → List String →
      Except RegistryError (List Rule × List String)) :
    List String → List String → List Rule →
      Except RegistryError (List Rule × List String)
  | [], visited, results => .ok (results, visited)
  | code :: rest, visited, results =>
    match forCode code visited with
    | .error e => .error e
    | .ok (set, visited') =>
      getRulesLoop forCode rest visited' (set.foldl addRule results)

/-- `LintRegistry._getRulesForCode`, with a fuel parameter making the
recursion through collections structural.  The fuel decreases only when a
collection is expanded; exhaustion is reported as the distinguished
`outOfFuel` error (shown below never to occur). -/
def getRulesForCode (reg : LintRegistry) :
    Nat → String → List String →
      Except RegistryError (List Rule × List String)
  | fuel, code, visited =>
    let visited' := if code ∈ visited then visited else visited ++ [code]
    match reg.all.lookup code with
    | none => .error (.notFound code)
    | some (.rule r) => .ok ([r], visited')
    | some (.collection c) =>
      match fuel with
      | 0 => .error .outOfFuel
      | fuel' + 1 =>
        getRulesLoop (getRulesForCode reg fuel')
          (c.rules.filter fun p => ¬ p ∈ visited') visited' []

/-- `LintRegistry._getRules`: filter out the codes already expanded, then
expand the rest. -/
def getRulesAux (reg : LintRegistry) (fuel : Nat) (codes : List String)
    (visited : List String) :
    Except RegistryError (List Rule × List String) :=
  getRulesLoop (getRulesForCode reg fuel)
    (codes.filter fun p => ¬ p ∈ visited) visited []

/-- Every code listed by any collection registered in the registry. -/
def allMemberCodes (reg : LintRegistry) : List String :=
  reg.all.flatMap fun entry =>
    match entry.2 with
    | .rule _ => []
    | .collection c => c.rules

/-- The fuel budget: one unit per code that could ever be expanded. -/
def fuelBound (reg : LintRegistry) (codes : List String) : Nat :=
  (codes ++ allMemberCodes reg).length + 1

/-- `LintRegistry.getRules`: expand the requested codes starting from an
empty visited set. -/
def getRules (reg : LintRegistry) (codes : List String) :
    Except RegistryError (List Rule) :=
  match getRulesAux reg (fuelBound reg codes) codes [] with
  | .error e => .error e
  | .ok (results, _) => .ok results

/-- `LintRegistry.register`: fail on a duplicate code; for a collection,
validate its members by resolving them; otherwise insert under the code. -/
def register (reg : LintRegistry) (entry : Entry) :
    Except RegistryError LintRegistry :=
  match reg.all.lookup entry.code with
  | some _ => .error (.duplicate entry.code)
  | none =>
    match entry with
    | .collection c =>
      match getRules reg c.rules with
      | .error e => .error e
      | .ok _ => .ok ⟨reg.all ++ [(entry.code, entry)]⟩
    | .rule _ => .ok ⟨reg.all ++ [(entry.code, entry)]⟩

/-- Spec-side reachability between codes through registered collections. -/
inductive ReachesCode (reg : LintRegistry) : String → String → Prop
  | refl (code : String) : ReachesCode reg code code
  | step {code target : String} {c : RuleCollection} {m : String} :
      reg.all.lookup code = some (.collection c) → m ∈ c.rules →
      ReachesCode reg m target → ReachesCode reg code target

/-- Spec-side: the concrete rules a code expands to. -/
def ReachesRule (reg : LintRegistry) (code : String) (r : Rule) : Prop :=
  ∃ c', ReachesCode reg code c' ∧ reg.all.lookup c' = some (.rule r)

/-- Spec-side: a code is resolvable when every code reachable from it is
registered. -/
def Resolvable (reg : LintRegistry) (code : String) : Prop :=
  ∀ c', ReachesCode reg code c' → (reg.all.lookup c').isSome

end Registry

/-! ## Concrete instances used by witnesses and counterexamples -/

/-- A single-line document whose offsets are the columns. -/
def exDoc : ParsedDocument where
  contents := "abcdefgh".toList
  sourceRangeToOffsets := fun r => (r.start.column, r.end_.column)

def exLoader : String → ParsedDocument := fun _ => exDoc

def exReplXY : Replacement := ⟨⟨"f", ⟨0, 2⟩, ⟨0, 3⟩⟩, "XY".toList⟩

def exReplZ : Replacement := ⟨⟨"f", ⟨0, 5⟩, ⟨0, 6⟩⟩, "Z".toList⟩

/-- Two replacements of an edit that conflict with each other (equal
ranges), for the first-come-first-served counterexample. -/
def exReplA : Replacement := ⟨⟨"f", ⟨0, 2⟩, ⟨0, 6⟩⟩, "x".toList⟩

def exReplA2 : Replacement := ⟨⟨"f", ⟨0, 2⟩, ⟨0, 6⟩⟩, "y".toList⟩

/-- A replacement overlapping the two above. -/
def exReplB : Replacement := ⟨⟨"f", ⟨0, 3⟩, ⟨0, 5⟩⟩, "z".toList⟩

/-- A replacement whose text equals the text its range covers. -/
def exReplNoop : Replacement := ⟨⟨"f", ⟨0, 2⟩, ⟨0, 4⟩⟩, "cd".toList⟩

def exDirDisableAll : PolymerLintDirective :=
  ⟨⟨"f", ⟨2, 0⟩, ⟨2, 10⟩⟩, ["disable"]⟩

def exDirEnableC : PolymerLintDirective :=
  ⟨⟨"f", ⟨4, 0⟩, ⟨4, 10⟩⟩, ["enable", "dom-module-invalid-attrs"]⟩

def exWarnC : Warning :=
  ⟨"dom-module-invalid-attrs", "m", .WARNING, ⟨"f", ⟨5, 0⟩, ⟨5, 3⟩⟩⟩

def exWarnOther : Warning :=
  ⟨"other-code", "m", .WARNING, ⟨"f", ⟨5, 0⟩, ⟨5, 3⟩⟩⟩

/-- A document carrying one analyzer-attached warning and one blanket
disable directive positioned before it. -/
def exDocWithDirective : Document := ⟨"f", [exWarnC], [exDirDisableAll]⟩

def exAnalyzer : Analyzer :=
  ⟨fun u => u, fun u => if u = "f" then some (.inl exDocWithDirective) else none⟩

/-- A directive-free document, for the failure isolation witness. -/
def exDocPlain : Document := ⟨"f", [], []⟩

def exWarn1 : Warning := ⟨"one", "w1", .WARNING, ⟨"f", ⟨1, 0⟩, ⟨1, 1⟩⟩⟩

def exWarn3 : Warning := ⟨"three", "w3", .ERROR, ⟨"f", ⟨3, 0⟩, ⟨3, 1⟩⟩⟩

def exRule1 : Linter.Rule := ⟨"one", "d1", fun _ => .ok [exWarn1]⟩

def exRuleFail : Linter.Rule := ⟨"two", "d2", fun _ => .error (.other "boom")⟩

def exRule3 : Linter.Rule := ⟨"three", "d3", fun _ => .ok [exWarn3]⟩

/-- A registry whose single collection lists itself. -/
def exRegCyclic : Registry.LintRegistry :=
  ⟨[("c", .collection ⟨"c", "d", ["c"]⟩)]⟩

/-- A registry with two rules and a collection grouping them. -/
def exRegistry : Registry.LintRegistry :=
  ⟨[("a", .rule ⟨"a", "da"⟩), ("b", .rule ⟨"b", "db"⟩),
    ("col", .collection ⟨"col", "dc", ["a", "b"]⟩)]⟩

/-! # Theorems

## The conflict rule refines the spec-side conflict rule -/

theorem isPositionInsideRange_false_iff (p : SourcePosition) (r : SourceRange) :
    isPositionInsideRange p r false = true ↔ strictlyInside p r := by
  obtain ⟨pl, pc⟩ := p
  obtain ⟨f, ⟨sl, sc⟩, ⟨el, ec⟩⟩ := r
  simp only [isPositionInsideRange, comparePositionAndRange, strictlyInside,
    posLt, beq_iff_eq]
  split_ifs <;> simp_all <;> omega

theorem areRangesEqual_iff (a b : SourceRange) :
    areRangesEqual a b = true ↔ (a.start = b.start ∧ a.end_ = b.end_) := by
  obtain ⟨f, ⟨sl, sc⟩, ⟨el, ec⟩⟩ := a
  obtain ⟨g, ⟨tl, tc⟩, ⟨ul, uc⟩⟩ := b
  simp [areRangesEqual, SourcePosition.mk.injEq, and_assoc]

theorem doRangesOverlap_iff (a b : SourceRange) :
    doRangesOverlap a b = true ↔ specConflict a b := by
  unfold doRangesOverlap specConflict
  split_ifs with hf
  · simp [hf]
  · push_neg at hf
    simp [hf, areRangesEqual_iff, isPositionInsideRange_false_iff, or_assoc]

theorem specConflict_symm {a b : SourceRange} (h : specConflict a b) :
    specConflict b a := by
  obtain ⟨hf, hcase⟩ := h
  refine ⟨hf.symm, ?_⟩
  rcases hcase with ⟨h1, h2⟩ | h | h | h | h
  · exact Or.inl ⟨h1.symm, h2.symm⟩
  · exact Or.inr (Or.inr (Or.inr (Or.inl h)))
  · exact Or.inr (Or.inr (Or.inr (Or.inr h)))
  · exact Or.inr (Or.inl h)
  · exact Or.inr (Or.inr (Or.inl h))

/-! ## `canApply` decides spec-side acceptability -/

theorem replacementConflictsWithResult_iff (r : Replacement)
    (soFar : EditResult) :
    replacementConflictsWithResult r soFar = true ↔
      ∃ e ∈ soFar.appliedEdits, ∃ r' ∈ e, specConflict r.range r'.range := by
  simp [replacementConflictsWithResult, List.any_eq_true, doRangesOverlap_iff]

theorem canApplyGo_cons (soFar : EditResult) (earlier : List Replacement)
    (replacement : Replacement) (rest : List Replacement) :
    canApplyGo soFar earlier (replacement :: rest) =
      (!replacementConflictsWithResult replacement soFar &&
        !(earlier.any fun prev =>
            doRangesOverlap replacement.range prev.range) &&
        canApplyGo soFar (earlier ++ [replacement]) rest) := by
  rw [canApplyGo]
  by_cases h1 : replacementConflictsWithResult replacement soFar <;>
    by_cases h2 :
      (earlier.any fun prev => doRangesOverlap replacement.range prev.range) <;>
    simp [h1, h2]

theorem canApplyGo_iff (soFar : EditResult) (rest : List Replacement) :
    ∀ earlier, canApplyGo soFar earlier rest = true ↔
      ((∀ r ∈ rest, ∀ e ∈ soFar.appliedEdits, ∀ r' ∈ e,
          ¬ specConflict r.range r'.range) ∧
        (∀ r ∈ rest, ∀ p ∈ earlier, ¬ specConflict r.range p.range) ∧
        rest.Pairwise fun a b => ¬ specConflict b.range a.range) := by
  induction rest with
  | nil => intro earlier; simp [canApplyGo]
  | cons replacement rest ih =>
    intro earlier
    rw [canApplyGo_cons, Bool.and_eq_true, Bool.and_eq_true, ih]
    simp only [Bool.not_eq_true', Bool.not_eq_true, ← Bool.not_eq_true,
      replacementConflictsWithResult_iff, List.any_eq_true, List.pairwise_cons,
      List.mem_cons, List.mem_append, List.mem_singleton, List.not_mem_nil,
      or_false, doRangesOverlap_iff]
    constructor
    · rintro ⟨⟨hc, he⟩, hrc, hre, hpw⟩
      push_neg at hc he
      refine ⟨?_, ?_, ?_, ?_⟩
      · rintro r (rfl | hr)
        · exact fun e he' r' hr' hconf => hc e he' r' hr' hconf
        · exact hrc r hr
      · rintro r (rfl | hr) p hp
        · exact fun hconf => he p hp hconf
        · exact hre r hr p (Or.inl hp)
      · intro b hb
        exact fun hconf => hre b hb replacement (Or.inr rfl) hconf
      · exact hpw
    · rintro ⟨hc, he, hhead, hpw⟩
      refine ⟨⟨?_, ?_⟩, ?_, ?_, ?_⟩
      · push_neg
        exact fun e he' r' hr' => hc replacement (Or.inl rfl) e he' r' hr'
      · push_neg
        exact fun p hp => he replacement (Or.inl rfl) p hp
      · exact fun r hr => hc r (Or.inr hr)
      · rintro r hr p (hp | rfl)
        · exact he r (Or.inr hr) p hp
        · exact hhead r hr
      · exact hpw

theorem canApply_iff (edit : Edit) (soFar : EditResult) :
    canApply edit soFar = true ↔ specEditOk edit soFar.appliedEdits := by
  rw [canApply, canApplyGo_iff, specEditOk]
  constructor
  · rintro ⟨hc, _, hpw⟩
    refine ⟨?_, ?_⟩
    · exact hpw.imp fun h hconf => h (specConflict_symm hconf)
    · exact fun r hr e he r' hr' => hc r hr e he r' hr'
  · rintro ⟨hpw, hc⟩
    refine ⟨fun r hr e he r' hr' => hc r hr e he r' hr', by simp, ?_⟩
    exact hpw.imp fun h hconf => h (specConflict_symm hconf)

theorem foldAccept_eq_spec (edits : List Edit) :
    ∀ result : EditResult,
      ((edits.foldl acceptEdit result).appliedEdits,
        (edits.foldl acceptEdit result).incompatibleEdits) =
        edits.foldl specFoldStep
          (result.appliedEdits, result.incompatibleEdits) := by
  induction edits with
  | nil => intro result; rfl
  | cons e rest ih =>
    intro result
    rw [List.foldl_cons, List.foldl_cons]
    by_cases h : specEditOk e result.appliedEdits
    · have hc : canApply e result = true := (canApply_iff e result).mpr h
      simp only [acceptEdit, hc, if_true, specFoldStep, if_pos h]
      exact ih _
    · have hc : canApply e result = false := by
        rw [← Bool.not_eq_true, canApply_iff]; exact h
      simp only [acceptEdit, hc, Bool.false_eq_true, if_false, specFoldStep,
        if_neg h]
      exact ih _

theorem applyEdits_applied_incompatible (edits : List Edit)
    (loader : String → ParsedDocument) :
    (applyEdits edits loader).appliedEdits =
        (edits.foldl acceptEdit ⟨[], [], []⟩).appliedEdits ∧
      (applyEdits edits loader).incompatibleEdits =
        (edits.foldl acceptEdit ⟨[], [], []⟩).incompatibleEdits := by
  constructor <;> rfl

/-- C1, amended: `applyEdits` accepts exactly the edits with no internal
conflict and no conflict against an earlier accepted edit (the spec-side
first-come-first-served fold), and of two overlapping edits the earlier one
wins provided the earlier one is itself internally conflict-free. -/
theorem applyEdits_first_come_first_served :
    (∀ (edits : List Edit) (loader : String → ParsedDocument),
      ((applyEdits edits loader).appliedEdits,
        (applyEdits edits loader).incompatibleEdits) = specApply edits) ∧
    (∀ (e1 e2 : Edit) (loader : String → ParsedDocument),
      e1.Pairwise (fun a b => ¬ specConflict a.range b.range) →
      (∃ r1 ∈ e1, ∃ r2 ∈ e2, specConflict r1.range r2.range) →
      (applyEdits [e1, e2] loader).appliedEdits = [e1] ∧
        (applyEdits [e1, e2] loader).incompatibleEdits = [e2]) := by
  have hmain : ∀ (edits : List Edit) (loader : String → ParsedDocument),
      ((applyEdits edits loader).appliedEdits,
        (applyEdits edits loader).incompatibleEdits) = specApply edits := by
    intro edits loader
    obtain ⟨h1, h2⟩ := applyEdits_applied_incompatible edits loader
    rw [h1, h2, specApply]
    exact foldAccept_eq_spec edits ⟨[], [], []⟩
  refine ⟨hmain, ?_⟩
  intro e1 e2 loader hpw hconf
  have hspec : specApply [e1, e2] = ([e1], [e2]) := by
    obtain ⟨r1, hr1, r2, hr2, hc⟩ := hconf
    have hstep1 : specFoldStep ([], []) e1 = ([e1], []) := by
      simp only [specFoldStep]
      rw [if_pos ⟨hpw, by simp⟩]
      simp
    have hnot : ¬ specEditOk e2 ([e1], ([] : List Edit)).1 := by
      rintro ⟨_, hcross⟩
      exact hcross r2 hr2 e1 (by simp) r1 hr1 (specConflict_symm hc)
    have hstep2 : specFoldStep ([e1], []) e2 = ([e1], [e2]) := by
      simp only [specFoldStep]
      rw [if_neg hnot]
      simp
    rw [specApply, List.foldl_cons, List.foldl_cons, List.foldl_nil, hstep1,
      hstep2]
  have := hmain [e1, e2] loader
  rw [hspec] at this
  exact ⟨congrArg Prod.fst this, congrArg Prod.snd this⟩

theorem applyEdits_first_come_first_served_witness :
    (applyEdits [[exReplA], [exReplB]] exLoader).appliedEdits = [[exReplA]] ∧
      (applyEdits [[exReplA], [exReplB]] exLoader).incompatibleEdits =
        [[exReplB]] :=
  applyEdits_first_come_first_served.2 [exReplA] [exReplB] exLoader
    (by decide) (by decide)

/-- C1 counterexample: the two edits overlap on the same file, yet the
earlier edit lands in `incompatibleEdits` (its own two replacements
conflict) and the later edit is applied. -/
theorem applyEdits_earlier_edit_rejected_cex :
    specConflict exReplA.range exReplB.range ∧
      (applyEdits [[exReplA, exReplA2], [exReplB]] exLoader).appliedEdits =
        [[exReplB]] ∧
      (applyEdits [[exReplA, exReplA2], [exReplB]] exLoader).incompatibleEdits =
        [[exReplA, exReplA2]] :=
  ⟨by decide, by decide, by decide⟩

/-! ## The edit result partitions the input -/

theorem foldAccept_shape (edits : List Edit) :
    ∀ result : EditResult,
      ∃ A B,
        (edits.foldl acceptEdit result).appliedEdits =
            result.appliedEdits ++ A ∧
          (edits.foldl acceptEdit result).incompatibleEdits =
            result.incompatibleEdits ++ B ∧
          A.Sublist edits ∧ B.Sublist edits ∧
          A.length + B.length = edits.length ∧
          ∀ e, A.count e + B.count e = edits.count e := by
  induction edits with
  | nil =>
    intro result
    exact ⟨[], [], by simp, by simp, List.Sublist.refl _, List.Sublist.refl _,
      rfl, fun e => rfl⟩
  | cons e rest ih =>
    intro result
    rw [List.foldl_cons]
    rw [acceptEdit]
    split_ifs with hc
    · obtain ⟨A, B, h1, h2, h3, h4, h5, h6⟩ :=
        ih { result with appliedEdits := result.appliedEdits ++ [e] }
      refine ⟨e :: A, B, ?_, ?_, h3.cons₂ e, h4.cons e,
        by simp only [List.length_cons]; omega, ?_⟩
      · rw [h1]; simp
      · rw [h2]
      · intro x
        rw [List.count_cons, List.count_cons, ← h6 x]
        omega
    · obtain ⟨A, B, h1, h2, h3, h4, h5, h6⟩ :=
        ih { result with incompatibleEdits := result.incompatibleEdits ++ [e] }
      refine ⟨A, e :: B, ?_, ?_, h3.cons e, h4.cons₂ e,
        by simp only [List.length_cons]; omega, ?_⟩
      · rw [h1]
      · rw [h2]; simp
      · intro x
        rw [List.count_cons, List.count_cons, ← h6 x]
        omega

/-- C10: every input edit ends up in exactly one of `appliedEdits` and
`incompatibleEdits`, input order is preserved within each list, and the two
lengths sum to the input length. -/
theorem applyEdits_partitions_input (edits : List Edit)
    (loader : String → ParsedDocument) :
    (applyEdits edits loader).appliedEdits.Sublist edits ∧
      (applyEdits edits loader).incompatibleEdits.Sublist edits ∧
      (applyEdits edits loader).appliedEdits.length +
          (applyEdits edits loader).incompatibleEdits.length = edits.length ∧
      ∀ e : Edit,
        (applyEdits edits loader).appliedEdits.count e +
            (applyEdits edits loader).incompatibleEdits.count e =
          edits.count e := by
  obtain ⟨ha, hi⟩ := applyEdits_applied_incompatible edits loader
  obtain ⟨A, B, h1, h2, h3, h4, h5, h6⟩ := foldAccept_shape edits ⟨[], [], []⟩
  simp only [List.nil_append] at h1 h2
  rw [ha, hi, h1, h2]
  exact ⟨h3, h4, h5, h6⟩

/-! ## Round-trip no-op -/

theorem mem_insertSorted {r a : Replacement} {l : List Replacement}
    (h : r ∈ insertSorted a l) : r = a ∨ r ∈ l := by
  induction l with
  | nil => simpa [insertSorted] using h
  | cons b l ih =>
    rw [insertSorted] at h
    split_ifs at h with hlt
    · simpa using h
    · rcases List.mem_cons.mp h with rfl | h'
      · exact Or.inr (List.mem_cons_self _ _)
      · rcases ih h' with rfl | h''
        · exact Or.inl rfl
        · exact Or.inr (List.mem_cons_of_mem _ h'')

theorem mem_sortReplacements {r : Replacement} {l : List Replacement}
    (h : r ∈ sortReplacements l) : r ∈ l := by
  rw [sortReplacements] at h
  suffices haux : ∀ (l₂ acc : List Replacement),
      r ∈ l₂.foldl (fun sorted a => insertSorted a sorted) acc →
        r ∈ acc ∨ r ∈ l₂ by
    rcases haux l [] h with h0 | h1
    · exact absurd h0 (List.not_mem_nil r)
    · exact h1
  intro l₂
  induction l₂ with
  | nil => intro acc h; exact Or.inl h
  | cons a l₂ ih =>
    intro acc h
    rcases ih (insertSorted a acc) h with h0 | h1
    · rcases mem_insertSorted h0 with rfl | h2
      · exact Or.inr (List.mem_cons_self _ _)
      · exact Or.inl h2
    · exact Or.inr (List.mem_cons_of_mem _ h1)

theorem addToGroup_mem {groups : List (String × List Replacement)}
    {L : List Replacement} {file : String} {r0 : Replacement}
    (hg : ∀ p ∈ groups, ∀ r ∈ p.2, r ∈ L ∧ r.range.file = p.1)
    (h0 : r0 ∈ L) (hf : r0.range.file = file) :
    ∀ p ∈ addToGroup groups file r0, ∀ r ∈ p.2, r ∈ L ∧ r.range.file = p.1 := by
  induction groups with
  | nil =>
    intro p hp r hr
    simp only [addToGroup, List.mem_singleton] at hp
    subst hp
    simp only [List.mem_singleton] at hr
    subst hr
    exact ⟨h0, hf⟩
  | cons q rest ih =>
    obtain ⟨qf, qrs⟩ := q
    intro p hp r hr
    rw [addToGroup] at hp
    split_ifs at hp with heq
    · rcases List.mem_cons.mp hp with rfl | hp'
      · rcases List.mem_append.mp hr with hr1 | hr2
        · exact hg (qf, qrs) (List.mem_cons_self _ _) r hr1
        · rw [List.mem_singleton] at hr2
          subst hr2
          exact ⟨h0, hf.trans heq.symm⟩
      · exact hg p (List.mem_cons_of_mem _ hp') r hr
    · rcases List.mem_cons.mp hp with rfl | hp'
      · exact hg (qf, qrs) (List.mem_cons_self _ _) r hr
      · exact ih (fun p hp => hg p (List.mem_cons_of_mem _ hp)) p hp' r hr

theorem groupReplacementsByFile_mem {L : List Replacement} :
    ∀ p ∈ groupReplacementsByFile L, ∀ r ∈ p.2, r ∈ L ∧ r.range.file = p.1 := by
  rw [groupReplacementsByFile]
  suffices haux : ∀ (l : List Replacement)
      (acc : List (String × List Replacement)), (∀ r ∈ l, r ∈ L) →
      (∀ p ∈ acc, ∀ r ∈ p.2, r ∈ L ∧ r.range.file = p.1) →
      ∀ p ∈ l.foldl (fun groups r => addToGroup groups r.range.file r) acc,
        ∀ r ∈ p.2, r ∈ L ∧ r.range.file = p.1 by
    exact haux L [] (fun r hr => hr) (by simp)
  intro l
  induction l with
  | nil => intro acc _ hacc; exact hacc
  | cons a l ih =>
    intro acc hl hacc
    exact ih _ (fun r hr => hl r (List.mem_cons_of_mem _ hr))
      (addToGroup_mem hacc (hl a (List.mem_cons_self _ _)) rfl)

theorem mem_foldl_append {α : Type} {r : α} {edits : List (List α)} :
    ∀ {acc : List α}, r ∈ edits.foldl (fun acc e => acc ++ e) acc →
      r ∈ acc ∨ ∃ e ∈ edits, r ∈ e := by
  induction edits with
  | nil => intro acc h; exact Or.inl h
  | cons e rest ih =>
    intro acc h
    rcases ih h with h0 | h1
    · rcases List.mem_append.mp h0 with h2 | h3
      · exact Or.inl h2
      · exact Or.inr ⟨e, List.mem_cons_self _ _, h3⟩
    · obtain ⟨e', he', hr⟩ := h1
      exact Or.inr ⟨e', List.mem_cons_of_mem _ he', hr⟩

theorem spliceReplacement_noop {document : ParsedDocument} {r : Replacement}
    (h : replacementIsNoop document r) :
    spliceReplacement document document.contents r = document.contents := by
  obtain ⟨hle, htext⟩ := h
  simp only [spliceReplacement]
  rw [htext]
  have h1 : List.take (document.sourceRangeToOffsets r.range).1
      document.contents =
      List.take (document.sourceRangeToOffsets r.range).1
        (List.take (document.sourceRangeToOffsets r.range).2
          document.contents) := by
    rw [List.take_take, Nat.min_eq_left hle]
  rw [h1, List.take_append_drop, List.take_append_drop]

theorem foldl_splice_noop {document : ParsedDocument}
    {rs : List Replacement} (h : ∀ r ∈ rs, replacementIsNoop document r) :
    rs.foldl (spliceReplacement document) document.contents =
      document.contents := by
  induction rs with
  | nil => rfl
  | cons r rest ih =>
    rw [List.foldl_cons, spliceReplacement_noop (h r (List.mem_cons_self _ _))]
    exact ih fun r hr => h r (List.mem_cons_of_mem _ hr)

theorem applyEdits_editedFiles (edits : List Edit)
    (loader : String → ParsedDocument) :
    (applyEdits edits loader).editedFiles =
      (groupReplacementsByFile
        ((edits.foldl acceptEdit ⟨[], [], []⟩).appliedEdits.foldl
          (fun acc e => acc ++ e) [])).map
        fun entry =>
          (entry.1, (sortReplacements entry.2).foldl
            (spliceReplacement (loader entry.1)) (loader entry.1).contents) :=
  rfl

theorem lookup_map_groups {groups : List (String × List Replacement)}
    {F : String × List Replacement → List Char} {file : String}
    {cs : List Char}
    (h : (groups.map fun entry => (entry.1, F entry)).lookup file = some cs) :
    ∃ entry ∈ groups, entry.1 = file ∧ cs = F entry := by
  induction groups with
  | nil => cases h
  | cons g rest ih =>
    rw [List.map_cons] at h
    by_cases heq : (file == g.1) = true
    · simp only [List.lookup, heq] at h
      obtain rfl := Option.some.inj h
      exact ⟨g, List.mem_cons_self _ _, (eq_of_beq heq).symm, rfl⟩
    · rw [Bool.not_eq_true] at heq
      simp only [List.lookup, heq] at h
      obtain ⟨entry, hentry, h1, h2⟩ := ih h
      exact ⟨entry, List.mem_cons_of_mem _ hentry, h1, h2⟩

/-- C9: if every applied replacement on a file replaces exactly the text its
range covers, the file's entry in `editedFiles` equals its loaded
contents. -/
theorem applyEdits_noop_round_trip (edits : List Edit)
    (loader : String → ParsedDocument) (file : String)
    (h : ∀ e ∈ (applyEdits edits loader).appliedEdits, ∀ r ∈ e,
      r.range.file = file → replacementIsNoop (loader file) r) :
    ∀ cs, (applyEdits edits loader).editedFiles.lookup file = some cs →
      cs = (loader file).contents := by
  intro cs hcs
  rw [applyEdits_editedFiles] at hcs
  obtain ⟨entry, hentry, hfile, hcsF⟩ := lookup_map_groups hcs
  have hmem := groupReplacementsByFile_mem entry hentry
  have happlied :
      (applyEdits edits loader).appliedEdits =
        (edits.foldl acceptEdit ⟨[], [], []⟩).appliedEdits :=
    (applyEdits_applied_incompatible edits loader).1
  have hnoop : ∀ r ∈ sortReplacements entry.2,
      replacementIsNoop (loader file) r := by
    intro r hr
    obtain ⟨hflat, hrfile⟩ := hmem r (mem_sortReplacements hr)
    rcases mem_foldl_append hflat with h0 | ⟨e, he, hre⟩
    · exact absurd h0 (List.not_mem_nil r)
    · exact h e (happlied ▸ he) r hre (hrfile.trans hfile)
  rw [hcsF, hfile]
  exact foldl_splice_noop hnoop

theorem applyEdits_noop_round_trip_witness :
    (applyEdits [[exReplNoop]] exLoader).editedFiles.lookup "f" =
        some "abcdefgh".toList ∧
      "abcdefgh".toList = (exLoader "f").contents :=
  ⟨by decide,
    applyEdits_noop_round_trip [[exReplNoop]] exLoader "f" (by decide) _
      (by decide)⟩

/-! ## Right-to-left application is simultaneous substitution -/

theorem take_append_append {α : Type} (x t S : List α) (p : Nat)
    (h : p ≤ x.length) : (x ++ t ++ S).take p = x.take p := by
  have h1 : p ≤ (x ++ t).length := by
    rw [List.length_append]
    omega
  rw [List.take_append_of_le_length h1, List.take_append_of_le_length h]

theorem drop_append_append {α : Type} (x t S : List α) (p : Nat)
    (h : p ≤ x.length) : (x ++ t ++ S).drop p = x.drop p ++ t ++ S := by
  have h1 : p ≤ (x ++ t).length := by
    rw [List.length_append]
    omega
  rw [List.drop_append_of_le_length h1, List.drop_append_of_le_length h]

theorem offsetsAscending_le_length (document : ParsedDocument) :
    ∀ (asc : List Replacement) (i : Nat),
      offsetsAscending document i asc = true →
      i ≤ document.contents.length := by
  intro asc
  induction asc with
  | nil =>
    intro i h
    rw [offsetsAscending] at h
    exact of_decide_eq_true h
  | cons r rest ih =>
    intro i h
    rw [offsetsAscending] at h
    simp only [Bool.and_eq_true, decide_eq_true_eq] at h
    obtain ⟨⟨h1, h2⟩, h3⟩ := h
    have h4 := ih _ h3
    omega

theorem offsetsAscending_mono (document : ParsedDocument)
    (asc : List Replacement) {i j : Nat} (hij : i ≤ j)
    (h : offsetsAscending document j asc = true) :
    offsetsAscending document i asc = true := by
  cases asc with
  | nil =>
    rw [offsetsAscending] at h ⊢
    simp only [decide_eq_true_eq] at h ⊢
    omega
  | cons r rest =>
    rw [offsetsAscending] at h ⊢
    simp only [Bool.and_eq_true, decide_eq_true_eq] at h ⊢
    obtain ⟨⟨h1, h2⟩, h3⟩ := h
    exact ⟨⟨by omega, h2⟩, h3⟩

theorem simultaneousSplice_take (document : ParsedDocument)
    (asc : List Replacement) {p q : Nat} (hpq : p ≤ q)
    (h : offsetsAscending document q asc = true) :
    (simultaneousSplice document 0 asc).take p =
      document.contents.take p := by
  cases asc with
  | nil => rw [simultaneousSplice, List.drop_zero]
  | cons r rest =>
    rw [offsetsAscending] at h
    simp only [Bool.and_eq_true, decide_eq_true_eq] at h
    obtain ⟨⟨h1, h2⟩, h3⟩ := h
    have hlen := offsetsAscending_le_length document rest _ h3
    rw [simultaneousSplice, List.drop_zero]
    rw [take_append_append]
    · rw [List.take_take]
      congr 1
      omega
    · rw [List.length_take]
      omega

theorem simultaneousSplice_drop (document : ParsedDocument)
    (asc : List Replacement) {p q : Nat} (hpq : p ≤ q)
    (h : offsetsAscending document q asc = true) :
    (simultaneousSplice document 0 asc).drop p =
      simultaneousSplice document p asc := by
  cases asc with
  | nil =>
    rw [simultaneousSplice, simultaneousSplice, List.drop_zero]
  | cons r rest =>
    rw [offsetsAscending] at h
    simp only [Bool.and_eq_true, decide_eq_true_eq] at h
    obtain ⟨⟨h1, h2⟩, h3⟩ := h
    have hlen := offsetsAscending_le_length document rest _ h3
    rw [simultaneousSplice, simultaneousSplice, List.drop_zero]
    rw [drop_append_append]
    rw [List.length_take]
    omega

theorem foldr_splice_eq_simultaneous (document : ParsedDocument) :
    ∀ asc : List Replacement,
      offsetsAscending document 0 asc = true →
      asc.foldr (fun r acc => spliceReplacement document acc r)
          document.contents =
        simultaneousSplice document 0 asc := by
  intro asc
  induction asc with
  | nil =>
    intro _
    rw [List.foldr_nil, simultaneousSplice, List.drop_zero]
  | cons r rest ih =>
    intro h
    rw [offsetsAscending] at h
    simp only [Bool.and_eq_true, decide_eq_true_eq] at h
    obtain ⟨⟨h1, h2⟩, h3⟩ := h
    rw [List.foldr_cons]
    have hrest0 : offsetsAscending document 0 rest = true :=
      offsetsAscending_mono document rest (Nat.zero_le _) h3
    rw [ih hrest0]
    simp only [spliceReplacement]
    rw [simultaneousSplice_take document rest h2 h3,
      simultaneousSplice_drop document rest (le_refl _) h3]
    rw [simultaneousSplice, List.drop_zero]

theorem sortReplacements_foldl_eq_foldr (document : ParsedDocument)
    (rs : List Replacement) :
    (sortReplacements rs).foldl (spliceReplacement document)
        document.contents =
      (sortReplacements rs).reverse.foldr
        (fun r acc => spliceReplacement document acc r)
        document.contents := by
  conv_lhs => rw [← List.reverse_reverse (sortReplacements rs)]
  rw [List.foldl_reverse]

theorem addToGroup_keys (groups : List (String × List Replacement))
    (file : String) (r : Replacement) :
    (addToGroup groups file r).map Prod.fst =
      if file ∈ groups.map Prod.fst then groups.map Prod.fst
      else groups.map Prod.fst ++ [file] := by
  induction groups with
  | nil => simp [addToGroup]
  | cons q rest ih =>
    obtain ⟨qf, qrs⟩ := q
    rw [addToGroup]
    by_cases heq : qf = file
    · subst heq
      simp
    · rw [if_neg heq, List.map_cons, List.map_cons, ih]
      by_cases hmem : file ∈ rest.map Prod.fst
      · rw [if_pos hmem, if_pos (List.mem_cons_of_mem _ hmem)]
      · have hno : file ∉ qf :: rest.map Prod.fst := by
          intro hc
          rcases List.mem_cons.mp hc with h1 | h1
          · exact heq h1.symm
          · exact hmem h1
        rw [if_neg hmem, if_neg hno, List.cons_append]

theorem groupReplacementsByFile_keys_nodup (l : List Replacement) :
    ((groupReplacementsByFile l).map Prod.fst).Nodup := by
  rw [groupReplacementsByFile]
  suffices haux : ∀ (l₂ : List Replacement)
      (acc : List (String × List Replacement)),
      (acc.map Prod.fst).Nodup →
      ((l₂.foldl (fun groups r => addToGroup groups r.range.file r)
        acc).map Prod.fst).Nodup by
    exact haux l [] (by simp)
  intro l₂
  induction l₂ with
  | nil => intro acc h; exact h
  | cons a l₂ ih =>
    intro acc h
    rw [List.foldl_cons]
    apply ih
    rw [addToGroup_keys]
    split_ifs with hmem
    · exact h
    · rw [List.nodup_append]
      refine ⟨h, List.nodup_singleton _, ?_⟩
      intro x hx hxf
      obtain rfl := List.mem_singleton.mp hxf
      exact hmem hx

theorem lookup_map_groups_of_mem
    {groups : List (String × List Replacement)}
    {F : String × List Replacement → List Char} {file : String}
    {rs : List Replacement}
    (hnodup : (groups.map Prod.fst).Nodup)
    (hmem : (file, rs) ∈ groups) :
    (groups.map fun entry => (entry.1, F entry)).lookup file =
      some (F (file, rs)) := by
  induction groups with
  | nil => cases hmem
  | cons g rest ih =>
    obtain ⟨k, v⟩ := g
    rw [List.map_cons] at hnodup
    obtain ⟨hk, hrest⟩ := List.nodup_cons.mp hnodup
    rcases List.mem_cons.mp hmem with heq | hmem2
    · obtain ⟨rfl, rfl⟩ := Prod.mk.inj heq
      simp [List.lookup]
    · have hfk : (file == k) = false := by
        rw [beq_eq_false_iff_ne]
        intro hc
        subst hc
        exact hk (List.mem_map.mpr ⟨(file, rs), hmem2, rfl⟩)
      rw [List.map_cons]
      simp only [List.lookup, hfk]
      exact ih hrest hmem2

theorem applyEdits_lookup_of_group_mem (edits : List Edit)
    (loader : String → ParsedDocument) (file : String)
    (rs : List Replacement)
    (hmem : (file, rs) ∈ groupReplacementsByFile
      ((applyEdits edits loader).appliedEdits.foldl
        (fun acc e => acc ++ e) [])) :
    (applyEdits edits loader).editedFiles.lookup file =
      some ((sortReplacements rs).foldl (spliceReplacement (loader file))
        (loader file).contents) := by
  rw [applyEdits_editedFiles]
  exact lookup_map_groups_of_mem (groupReplacementsByFile_keys_nodup _) hmem

/-- C5: right-to-left application correctness: whenever the loader maps a
file's accepted replacements, taken in the engine's descending order, to
in-bounds pairwise-disjoint offset intervals (the offset-level reading of a
set of pairwise non-conflicting replacements on one file), the file's entry
in `editedFiles` is the simultaneous substitution in which every replacement
replaces exactly the text its range covered in the original contents; and
concretely the two non-overlapping replacements on "abcdefgh" produce
"abXYdeZgh" whatever order they are listed in, within one edit or across
two. -/
theorem applyEdits_right_to_left_spec :
    (∀ (edits : List Edit) (loader : String → ParsedDocument)
        (file : String) (rs : List Replacement),
      (file, rs) ∈ groupReplacementsByFile
        ((applyEdits edits loader).appliedEdits.foldl
          (fun acc e => acc ++ e) []) →
      offsetsAscending (loader file) 0 (sortReplacements rs).reverse =
        true →
      (applyEdits edits loader).editedFiles.lookup file =
        some (simultaneousSplice (loader file) 0
          (sortReplacements rs).reverse)) ∧
    ((applyEdits [[exReplXY, exReplZ]] exLoader).editedFiles =
        [("f", "abXYdeZgh".toList)] ∧
      (applyEdits [[exReplZ, exReplXY]] exLoader).editedFiles =
        [("f", "abXYdeZgh".toList)] ∧
      (applyEdits [[exReplXY], [exReplZ]] exLoader).editedFiles =
        [("f", "abXYdeZgh".toList)] ∧
      (applyEdits [[exReplZ], [exReplXY]] exLoader).editedFiles =
        [("f", "abXYdeZgh".toList)]) := by
  refine ⟨?_, by decide, by decide, by decide, by decide⟩
  intro edits loader file rs hmem hchain
  rw [applyEdits_lookup_of_group_mem edits loader file rs hmem]
  congr 1
  rw [sortReplacements_foldl_eq_foldr]
  exact foldr_splice_eq_simultaneous (loader file) _ hchain

theorem applyEdits_right_to_left_spec_witness :
    (applyEdits [[exReplXY, exReplZ]] exLoader).editedFiles.lookup "f" =
      some (simultaneousSplice (exLoader "f") 0
        (sortReplacements [exReplXY, exReplZ]).reverse) :=
  applyEdits_right_to_left_spec.1 [[exReplXY, exReplZ]] exLoader "f"
    [exReplXY, exReplZ] (by decide) (by decide)

/-! ## Analyzer-attached warnings pass through the linter -/

theorem analyzeAll_docs_mono (analyzer : Analyzer) (files : List String) :
    ∀ (acc : List Document × List Warning) (d : Document), d ∈ acc.1 →
      d ∈ (files.foldl
        (fun acc file =>
          match analyzer.getDocument (analyzer.resolveUrl file) with
          | none => acc
          | some (.inl document) => (acc.1 ++ [document], acc.2)
          | some (.inr warning) => (acc.1, acc.2 ++ [warning]))
        acc).1 := by
  induction files with
  | nil => intro acc d h; exact h
  | cons f rest ih =>
    intro acc d h
    rw [List.foldl_cons]
    cases hf : analyzer.getDocument (analyzer.resolveUrl f) with
    | none => exact ih acc d h
    | some dw =>
      cases dw with
      | inl document =>
        exact ih _ d (List.mem_append.mpr (Or.inl h))
      | inr warning => exact ih _ d h

theorem analyzeAll_foldl_mem (analyzer : Analyzer) (files : List String)
    (file : String) (d : Document) (hfile : file ∈ files)
    (hdoc : analyzer.getDocument (analyzer.resolveUrl file) = some (.inl d)) :
    ∀ acc : List Document × List Warning, d ∈ (files.foldl
      (fun acc file =>
        match analyzer.getDocument (analyzer.resolveUrl file) with
        | none => acc
        | some (.inl document) => (acc.1 ++ [document], acc.2)
        | some (.inr warning) => (acc.1, acc.2 ++ [warning]))
      acc).1 := by
  induction files with
  | nil => exact absurd hfile (List.not_mem_nil file)
  | cons f rest ih =>
    intro acc
    rw [List.foldl_cons]
    rcases List.mem_cons.mp hfile with rfl | hrest
    · rw [hdoc]
      exact analyzeAll_docs_mono analyzer rest _ d (by simp)
    · exact ih hrest _

theorem analyzeAll_mem_documents (analyzer : Analyzer) (files : List String)
    (file : String) (d : Document) (hfile : file ∈ files)
    (hdoc : analyzer.getDocument (analyzer.resolveUrl file) = some (.inl d)) :
    d ∈ (analyzeAll analyzer files).1 := by
  rw [analyzeAll]
  exact analyzeAll_foldl_mem analyzer files file d hfile hdoc ([], [])

theorem mem_foldl_append_mono {α β : Type} (g : β → List α) :
    ∀ (l : List β) (acc : List α) (a : α), a ∈ acc →
      a ∈ l.foldl (fun acc x => acc ++ g x) acc := by
  intro l
  induction l with
  | nil => intro acc a h; exact h
  | cons x rest ih =>
    intro acc a h
    rw [List.foldl_cons]
    exact ih _ a (List.mem_append.mpr (Or.inl h))

theorem mem_foldl_append_of_mem {α β : Type} (g : β → List α) :
    ∀ (l : List β) (acc : List α) (b : β) (a : α), b ∈ l → a ∈ g b →
      a ∈ l.foldl (fun acc x => acc ++ g x) acc := by
  intro l
  induction l with
  | nil => intro acc b a hb _; exact absurd hb (List.not_mem_nil b)
  | cons x rest ih =>
    intro acc b a hb ha
    rw [List.foldl_cons]
    rcases List.mem_cons.mp hb with rfl | hb'
    · exact mem_foldl_append_mono g rest _ a (List.mem_append.mpr (Or.inr ha))
    · exact ih _ b a hb' ha

/-- C2, amended: a warning the analyzer attached to a document is always in
the returned list, whatever the rules and whatever directives the document
holds; analyzer-attached warnings bypass directive filtering. -/
theorem lint_includes_analyzer_warnings
    (rules : List Linter.Rule) (analyzer : Analyzer) (files : List String)
    (file : String) (d : Document) (w : Warning)
    (hfile : file ∈ files)
    (hdoc : analyzer.getDocument (analyzer.resolveUrl file) = some (.inl d))
    (hw : w ∈ d.warnings) :
    w ∈ lint rules analyzer files := by
  rw [lint]
  have hd : d ∈ (analyzeAll analyzer files).1 :=
    analyzeAll_mem_documents analyzer files file d hfile hdoc
  have hmid : w ∈ (analyzeAll analyzer files).1.foldl
      (fun acc d => acc ++ d.warnings) [] :=
    mem_foldl_append_of_mem (fun d => d.warnings) _ [] d w hd hw
  exact List.mem_append.mpr
    (Or.inl (List.mem_append.mpr (Or.inr hmid)))

theorem lint_includes_analyzer_warnings_witness :
    exWarnC ∈ lint [] exAnalyzer ["f"] :=
  lint_includes_analyzer_warnings [] exAnalyzer ["f"] "f" exDocWithDirective
    exWarnC (by decide) (by rfl) (by decide)

/-- C2 counterexample: the analyzer-attached warning's code is disabled by a
blanket directive ending before it (the directive filter would drop a
rule-produced warning shaped like it), yet it is present in the returned
list. -/
theorem lint_analyzer_warning_not_suppressed_cex :
    filterLintWarningsByDirective [exWarnC] exDocWithDirective.directives =
        [] ∧
      exWarnC ∈ lint [] exAnalyzer ["f"] :=
  ⟨by decide, by decide⟩

/-! ## Failure isolation -/

theorem checkRules_accum (rules : List Linter.Rule) (d : Document) :
    ∀ acc : List Warning × List Warning,
      rules.foldl
        (fun acc rule =>
          match rule.check d with
          | .ok ws => (acc.1 ++ ws, acc.2)
          | .error e =>
            (acc.1,
              acc.2 ++ [getWarningFromError e d.url "internal-lint-error"
                ("Internal error during linting: " ++ e.message)]))
        acc =
      (acc.1 ++ (checkRules rules d).1, acc.2 ++ (checkRules rules d).2) := by
  induction rules with
  | nil => intro acc; simp [checkRules]
  | cons r rest ih =>
    intro acc
    rw [checkRules, List.foldl_cons, List.foldl_cons]
    cases hr : r.check d with
    | ok ws =>
      simp only [hr]
      rw [ih, ih]
      simp
    | error e =>
      simp only [hr]
      rw [ih, ih]
      simp

theorem checkRules_append (l1 l2 : List Linter.Rule) (d : Document) :
    checkRules (l1 ++ l2) d =
      ((checkRules l1 d).1 ++ (checkRules l2 d).1,
        (checkRules l1 d).2 ++ (checkRules l2 d).2) := by
  rw [checkRules, List.foldl_append]
  exact checkRules_accum l2 d _

theorem checkRules_cons (r : Linter.Rule) (rest : List Linter.Rule)
    (d : Document) :
    checkRules (r :: rest) d =
      match r.check d with
      | .ok ws => (ws ++ (checkRules rest d).1, (checkRules rest d).2)
      | .error e => ((checkRules rest d).1,
          getWarningFromError e d.url "internal-lint-error"
            ("Internal error during linting: " ++ e.message) ::
            (checkRules rest d).2) := by
  rw [checkRules, List.foldl_cons]
  cases hr : r.check d with
  | ok ws =>
    simp only [hr]
    exact checkRules_accum rest d ([] ++ ws, [])
  | error e =>
    simp only [hr]
    exact checkRules_accum rest d _

theorem checkRules_all_ok (rules : List Linter.Rule) (d : Document)
    (h : ∀ r ∈ rules, ∃ ws, r.check d = .ok ws) :
    (checkRules rules d).2 = [] := by
  induction rules with
  | nil => rfl
  | cons r rest ih =>
    obtain ⟨ws, hws⟩ := h r (List.mem_cons_self _ _)
    rw [checkRules_cons, hws]
    exact ih fun r hr => h r (List.mem_cons_of_mem _ hr)

theorem lintDocuments_single (rules : List Linter.Rule) (d : Document) :
    lintDocuments rules [d] =
      (checkRules rules d).2 ++
        (if d.directives.isEmpty then (checkRules rules d).1
         else filterLintWarningsByDirective (checkRules rules d).1
           d.directives) := by
  simp [lintDocuments]

/-- C4: when exactly one rule in the list throws, the lint result for the
document is the result without that rule plus exactly one extra diagnostic
in front: the carried warning verbatim for a warning-carrying failure, and
otherwise a synthetic internal-lint-error warning of severity WARNING with a
zero-width range at line 0, column 0 of the document. -/
theorem lintDocuments_failure_isolation
    (A B : List Linter.Rule) (rfail : Linter.Rule) (d : Document)
    (e : LintError) (hfail : rfail.check d = .error e)
    (hok : ∀ r ∈ A ++ B, ∃ ws, r.check d = .ok ws) :
    lintDocuments (A ++ rfail :: B) [d] =
        getWarningFromError e d.url "internal-lint-error"
          ("Internal error during linting: " ++ e.message) ::
          lintDocuments (A ++ B) [d] ∧
      (∀ w, e = .warningCarrying w →
        getWarningFromError e d.url "internal-lint-error"
          ("Internal error during linting: " ++ e.message) = w) ∧
      (∀ msg, e = .other msg →
        getWarningFromError e d.url "internal-lint-error"
          ("Internal error during linting: " ++ e.message) =
          { code := "internal-lint-error",
            message := "Internal error during linting: " ++ msg,
            severity := .WARNING,
            sourceRange := ⟨d.url, ⟨0, 0⟩, ⟨0, 0⟩⟩ }) := by
  refine ⟨?_, ?_, ?_⟩
  · have hA : ∀ r ∈ A, ∃ ws, r.check d = .ok ws := fun r hr =>
      hok r (List.mem_append.mpr (Or.inl hr))
    have hB : ∀ r ∈ B, ∃ ws, r.check d = .ok ws := fun r hr =>
      hok r (List.mem_append.mpr (Or.inr hr))
    have h2fail : checkRules (A ++ rfail :: B) d =
        ((checkRules A d).1 ++ (checkRules B d).1,
          [getWarningFromError e d.url "internal-lint-error"
            ("Internal error during linting: " ++ e.message)]) := by
      rw [checkRules_append, checkRules_cons, hfail,
        checkRules_all_ok A d hA, checkRules_all_ok B d hB]
      simp
    have h2ok : checkRules (A ++ B) d =
        ((checkRules A d).1 ++ (checkRules B d).1, []) := by
      rw [checkRules_append, checkRules_all_ok A d hA,
        checkRules_all_ok B d hB]
      simp
    rw [lintDocuments_single, lintDocuments_single, h2fail, h2ok]
    simp
  · intro w hw
    subst hw
    rfl
  · intro msg hm
    subst hm
    rfl

theorem lintDocuments_failure_isolation_witness :
    lintDocuments [exRule1, exRuleFail, exRule3] [exDocPlain] =
      getWarningFromError (.other "boom") exDocPlain.url "internal-lint-error"
        ("Internal error during linting: " ++ "boom") ::
        lintDocuments [exRule1, exRule3] [exDocPlain] :=
  (lintDocuments_failure_isolation [exRule1] [exRule3] exRuleFail exDocPlain
    (.other "boom") rfl
    (by
      intro r hr
      rcases List.mem_cons.mp hr with rfl | hr2
      · exact ⟨[exWarn1], rfl⟩
      rcases List.mem_cons.mp hr2 with rfl | h0
      · exact ⟨[exWarn3], rfl⟩
      exact absurd h0 (List.not_mem_nil r))).1

/-! ## The directive filter refines the spec-side fold -/

theorem comparePositionAndRange_true_neg_one_iff (p : SourcePosition)
    (r : SourceRange) (hvalid : posLe r.start r.end_) :
    (comparePositionAndRange p r true == -1) = true ↔ posLt p r.start := by
  obtain ⟨pl, pc⟩ := p
  obtain ⟨f, ⟨sl, sc⟩, ⟨el, ec⟩⟩ := r
  simp only [posLe, posLt, SourcePosition.mk.injEq] at hvalid
  simp only [comparePositionAndRange, posLt, beq_iff_eq]
  split_ifs <;> simp_all <;> omega

theorem filterDirectivesByCode_eq_spec (directives : List PolymerLintDirective)
    (code : String) (hd : ∀ d ∈ directives, d.args ≠ []) :
    filterDirectivesByCode directives code =
      directives.filter fun d => decide (specRelevant d code) := by
  rw [filterDirectivesByCode]
  apply List.filter_congr
  intro d hdmem
  obtain ⟨dr, dargs⟩ := d
  cases dargs with
  | nil => exact absurd rfl (hd ⟨dr, []⟩ hdmem)
  | cons verb codes =>
    rw [Bool.eq_iff_iff]
    simp only [Bool.or_eq_true, beq_iff_eq, decide_eq_true_eq, specRelevant,
      List.drop_succ_cons, List.drop_zero, List.length_cons, List.contains,
      List.elem_iff]
    constructor
    · rintro (h1 | h2)
      · exact Or.inl (List.eq_nil_of_length_eq_zero (by omega))
      · exact Or.inr h2
    · rintro (h1 | h2)
      · subst h1
        exact Or.inl rfl
      · exact Or.inr h2

/-- C3: the directive filter keeps a warning iff the spec-side fold over its
relevant directives (same file, range ending strictly before the warning's
start flips the state to the directive's verb) ends in `true`; and in the
concrete scenario a blanket disable then a code-specific enable keep exactly
the warning of the re-enabled code. -/
theorem filterLintWarnings_spec :
    (∀ (warnings : List Warning) (directives : List PolymerLintDirective),
      (∀ w ∈ warnings, posLe w.sourceRange.start w.sourceRange.end_) →
      (∀ d ∈ directives, d.args ≠ []) →
      filterLintWarningsByDirective warnings directives =
        warnings.filter fun w => specKeepsWarning w directives) ∧
    filterLintWarningsByDirective [exWarnC, exWarnOther]
        [exDirDisableAll, exDirEnableC] = [exWarnC] := by
  refine ⟨?_, by decide⟩
  intro warnings directives hw hd
  rw [filterLintWarningsByDirective]
  apply List.filter_congr
  intro w hwmem
  rw [specKeepsWarning, ← filterDirectivesByCode_eq_spec directives w.code hd]
  apply List.foldl_ext
  intro b d _
  by_cases hcond : d.sourceRange.file = w.sourceRange.file ∧
      posLt d.sourceRange.end_ w.sourceRange.start
  · have h1 : (d.sourceRange.file == w.sourceRange.file) = true :=
      beq_iff_eq.mpr hcond.1
    have h2 : (comparePositionAndRange d.sourceRange.end_ w.sourceRange true
        == -1) = true :=
      (comparePositionAndRange_true_neg_one_iff _ _ (hw w hwmem)).mpr hcond.2
    rw [if_pos hcond]
    simp [h1, h2]
  · rw [if_neg hcond]
    rcases not_and_or.mp hcond with hna | hnb
    · have h1 : (d.sourceRange.file == w.sourceRange.file) = false := by
        simpa using hna
      simp [h1]
    · have h2 : (comparePositionAndRange d.sourceRange.end_ w.sourceRange true
          == -1) = false := by
        rw [← Bool.not_eq_true,
          comparePositionAndRange_true_neg_one_iff _ _ (hw w hwmem)]
        exact hnb
      simp [h2]

theorem filterLintWarnings_spec_witness :
    filterLintWarningsByDirective [exWarnC] [exDirDisableAll, exDirEnableC] =
      List.filter (fun w => specKeepsWarning w [exDirDisableAll, exDirEnableC])
        [exWarnC] :=
  filterLintWarnings_spec.1 [exWarnC] [exDirDisableAll, exDirEnableC]
    (by decide) (by decide)

/-! ## Registry resolution -/

namespace Registry

theorem mem_addRule {x r : Rule} {results : List Rule} :
    x ∈ addRule results r ↔ x ∈ results ∨ x = r := by
  rw [addRule]
  split_ifs with h
  · constructor
    · exact Or.inl
    · rintro (hx | rfl)
      · exact hx
      · exact h
  · simp [List.mem_append]

theorem mem_foldl_addRule {x : Rule} :
    ∀ {s results : List Rule},
      x ∈ s.foldl addRule results ↔ x ∈ results ∨ x ∈ s := by
  intro s
  induction s with
  | nil => intro results; simp
  | cons a s ih =>
    intro results
    rw [List.foldl_cons, ih, mem_addRule]
    simp only [List.mem_cons]
    tauto

theorem mem_insertVisited {x code : String} {v : List String} (h : x ∈ v) :
    x ∈ (if code ∈ v then v else v ++ [code]) := by
  split_ifs
  · exact h
  · exact List.mem_append.mpr (Or.inl h)

theorem self_mem_insertVisited (code : String) (v : List String) :
    code ∈ (if code ∈ v then v else v ++ [code]) := by
  split_ifs with h
  · exact h
  · exact List.mem_append.mpr (Or.inr (List.mem_singleton.mpr rfl))

theorem mem_insertVisited_elim {x code : String} {v : List String}
    (h : x ∈ (if code ∈ v then v else v ++ [code])) : x ∈ v ∨ x = code := by
  split_ifs at h
  · exact Or.inl h
  · rcases List.mem_append.mp h with h1 | h1
    · exact Or.inl h1
    · exact Or.inr (List.mem_singleton.mp h1)

theorem lookup_mem {l : List (String × Entry)} {code : String} {e : Entry}
    (h : l.lookup code = some e) : (code, e) ∈ l := by
  induction l with
  | nil => cases h
  | cons p rest ih =>
    obtain ⟨k, b⟩ := p
    rw [List.lookup] at h
    by_cases hc : (code == k) = true
    · rw [hc] at h
      obtain rfl := Option.some.inj h
      have : code = k := eq_of_beq hc
      subst this
      exact List.mem_cons_self _ _
    · rw [Bool.not_eq_true] at hc
      rw [hc] at h
      exact List.mem_cons_of_mem _ (ih h)

theorem getRulesLoop_visited_mono
    (fc : String → List String →
      Except RegistryError (List Rule × List String))
    (hmono : ∀ code v s v', fc code v = .ok (s, v') → ∀ x ∈ v, x ∈ v') :
    ∀ (codes visited : List String) (results s : List Rule)
      (v' : List String),
      getRulesLoop fc codes visited results = .ok (s, v') →
      ∀ x ∈ visited, x ∈ v' := by
  intro codes
  induction codes with
  | nil =>
    intro visited results s v' h x hx
    rw [getRulesLoop] at h
    simp only [Except.ok.injEq, Prod.mk.injEq] at h
    obtain ⟨rfl, rfl⟩ := h
    exact hx
  | cons code rest ih =>
    intro visited results s v' h x hx
    rw [getRulesLoop] at h
    cases hfc_eq : fc code visited with
    | error e => simp [hfc_eq] at h
    | ok sv =>
      obtain ⟨s1, v1⟩ := sv
      simp only [hfc_eq] at h
      exact ih v1 _ s v' h x (hmono _ _ _ _ hfc_eq x hx)

theorem getRulesForCode_visited_mono (reg : LintRegistry) :
    ∀ (fuel : Nat) (code : String) (v : List String) (s : List Rule)
      (v' : List String),
      getRulesForCode reg fuel code v = .ok (s, v') → ∀ x ∈ v, x ∈ v' := by
  intro fuel
  induction fuel with
  | zero =>
    intro code v s v' h x hx
    simp only [getRulesForCode] at h
    cases hl : reg.all.lookup code with
    | none => simp [hl] at h
    | some entry =>
      cases entry with
      | rule r =>
        simp only [hl] at h
        simp only [Except.ok.injEq, Prod.mk.injEq] at h
        obtain ⟨rfl, rfl⟩ := h
        exact mem_insertVisited hx
      | collection c => simp [hl] at h
  | succ fuel ih =>
    intro code v s v' h x hx
    simp only [getRulesForCode] at h
    cases hl : reg.all.lookup code with
    | none => simp [hl] at h
    | some entry =>
      cases entry with
      | rule r =>
        simp only [hl] at h
        simp only [Except.ok.injEq, Prod.mk.injEq] at h
        obtain ⟨rfl, rfl⟩ := h
        exact mem_insertVisited hx
      | collection c =>
        simp only [hl] at h
        exact getRulesLoop_visited_mono (getRulesForCode reg fuel)
          (fun code v s v' h => ih code v s v' h) _ _ _ _ _ h x
          (mem_insertVisited hx)

theorem getRulesLoop_post (reg : LintRegistry)
    (fc : String → List String →
      Except RegistryError (List Rule × List String))
    (hmono : ∀ code v s v', fc code v = .ok (s, v') → ∀ x ∈ v, x ∈ v')
    (hpost : ∀ code v s v', fc code v = .ok (s, v') →
      code ∈ v' ∧
      ∀ x ∈ v', x ∉ v →
        (∀ r, reg.all.lookup x = some (.rule r) → r ∈ s) ∧
        (∀ c, reg.all.lookup x = some (.collection c) →
          ∀ m ∈ c.rules, m ∈ v') ∧
        (reg.all.lookup x).isSome = true) :
    ∀ (codes visited : List String) (results s : List Rule)
      (v' : List String),
      getRulesLoop fc codes visited results = .ok (s, v') →
      (∀ code ∈ codes, code ∈ v') ∧
      (∀ x ∈ results, x ∈ s) ∧
      ∀ x ∈ v', x ∉ visited →
        (∀ r, reg.all.lookup x = some (.rule r) → r ∈ s) ∧
        (∀ c, reg.all.lookup x = some (.collection c) →
          ∀ m ∈ c.rules, m ∈ v') ∧
        (reg.all.lookup x).isSome = true := by
  intro codes
  induction codes with
  | nil =>
    intro visited results s v' h
    rw [getRulesLoop] at h
    simp only [Except.ok.injEq, Prod.mk.injEq] at h
    obtain ⟨rfl, rfl⟩ := h
    refine ⟨by simp, fun x hx => hx, ?_⟩
    intro x hx hnx
    exact absurd hx hnx
  | cons code rest ih =>
    intro visited results s v' h
    rw [getRulesLoop] at h
    cases hfc_eq : fc code visited with
    | error e => simp [hfc_eq] at h
    | ok sv =>
      obtain ⟨s1, v1⟩ := sv
      simp only [hfc_eq] at h
      obtain ⟨hcodes, hres, hclosure⟩ := ih v1 (s1.foldl addRule results) s v' h
      have hmono2 : ∀ x ∈ v1, x ∈ v' :=
        getRulesLoop_visited_mono fc hmono rest v1 _ s v' h
      obtain ⟨hcodein, hpost1⟩ := hpost _ _ _ _ hfc_eq
      refine ⟨?_, ?_, ?_⟩
      · intro c hc
        rcases List.mem_cons.mp hc with rfl | hc'
        · exact hmono2 _ hcodein
        · exact hcodes c hc'
      · intro x hx
        exact hres x (mem_foldl_addRule.mpr (Or.inl hx))
      · intro x hx hnx
        by_cases hxv1 : x ∈ v1
        · obtain ⟨hrule, hcoll, hsome⟩ := hpost1 x hxv1 hnx
          refine ⟨?_, ?_, hsome⟩
          · intro r hr
            exact hres r (mem_foldl_addRule.mpr (Or.inr (hrule r hr)))
          · intro c hc m hm
            exact hmono2 m (hcoll c hc m hm)
        · exact hclosure x hx hxv1

theorem getRulesForCode_post (reg : LintRegistry) :
    ∀ (fuel : Nat) (code : String) (v : List String) (s : List Rule)
      (v' : List String),
      getRulesForCode reg fuel code v = .ok (s, v') →
      code ∈ v' ∧
      ∀ x ∈ v', x ∉ v →
        (∀ r, reg.all.lookup x = some (.rule r) → r ∈ s) ∧
        (∀ c, reg.all.lookup x = some (.collection c) →
          ∀ m ∈ c.rules, m ∈ v') ∧
        (reg.all.lookup x).isSome = true := by
  intro fuel
  induction fuel with
  | zero =>
    intro code v s v' h
    simp only [getRulesForCode] at h
    cases hl : reg.all.lookup code with
    | none => simp [hl] at h
    | some entry =>
      cases entry with
      | rule r =>
        simp only [hl] at h
        simp only [Except.ok.injEq, Prod.mk.injEq] at h
        obtain ⟨rfl, rfl⟩ := h
        refine ⟨self_mem_insertVisited code v, ?_⟩
        intro x hx hnx
        have hxc : x = code := by
          rcases mem_insertVisited_elim hx with h1 | h1
          · exact absurd h1 hnx
          · exact h1
        subst hxc
        refine ⟨?_, ?_, by rw [hl]; rfl⟩
        · intro r' hr'
          rw [hl] at hr'
          obtain rfl := Entry.rule.inj (Option.some.inj hr')
          exact List.mem_singleton.mpr rfl
        · intro c' hc'
          rw [hl] at hc'
          cases Option.some.inj hc'
      | collection c => simp [hl] at h
  | succ fuel ih =>
    intro code v s v' h
    simp only [getRulesForCode] at h
    cases hl : reg.all.lookup code with
    | none => simp [hl] at h
    | some entry =>
      cases entry with
      | rule r =>
        simp only [hl] at h
        simp only [Except.ok.injEq, Prod.mk.injEq] at h
        obtain ⟨rfl, rfl⟩ := h
        refine ⟨self_mem_insertVisited code v, ?_⟩
        intro x hx hnx
        have hxc : x = code := by
          rcases mem_insertVisited_elim hx with h1 | h1
          · exact absurd h1 hnx
          · exact h1
        subst hxc
        refine ⟨?_, ?_, by rw [hl]; rfl⟩
        · intro r' hr'
          rw [hl] at hr'
          obtain rfl := Entry.rule.inj (Option.some.inj hr')
          exact List.mem_singleton.mpr rfl
        · intro c' hc'
          rw [hl] at hc'
          cases Option.some.inj hc'
      | collection c =>
        simp only [hl] at h
        have hmono : ∀ code v s v',
            getRulesForCode reg fuel code v = .ok (s, v') →
            ∀ x ∈ v, x ∈ v' :=
          fun code v s v' h => getRulesForCode_visited_mono reg fuel code v s v' h
        obtain ⟨hcodes, hres, hclosure⟩ :=
          getRulesLoop_post reg _ hmono
            (fun code v s v' h => ih code v s v' h) _ _ _ _ _ h
        have hvmono : ∀ x ∈ (if code ∈ v then v else v ++ [code]), x ∈ v' :=
          getRulesLoop_visited_mono _ hmono _ _ _ _ _ h
        refine ⟨hvmono code (self_mem_insertVisited code v), ?_⟩
        intro x hx hnx
        by_cases hxvis : x ∈ (if code ∈ v then v else v ++ [code])
        · have hxc : x = code := by
            rcases mem_insertVisited_elim hxvis with h1 | h1
            · exact absurd h1 hnx
            · exact h1
          subst hxc
          refine ⟨?_, ?_, by rw [hl]; rfl⟩
          · intro r' hr'
            rw [hl] at hr'
            cases Option.some.inj hr'
          · intro c' hc' m hm
            rw [hl] at hc'
            obtain rfl := Entry.collection.inj (Option.some.inj hc')
            by_cases hmv : m ∈ (if x ∈ v then v else v ++ [x])
            · exact hvmono m hmv
            · exact hcodes m (List.mem_filter.mpr ⟨hm, by simpa using hmv⟩)
        · exact hclosure x hx hxvis

theorem getRulesLoop_sound (reg : LintRegistry)
    (fc : String → List String →
      Except RegistryError (List Rule × List String))
    (hsound : ∀ code v s v', fc code v = .ok (s, v') →
      ∀ r ∈ s, ReachesRule reg code r) :
    ∀ (codes visited : List String) (results s : List Rule)
      (v' : List String),
      getRulesLoop fc codes visited results = .ok (s, v') →
      ∀ r ∈ s, r ∈ results ∨ ∃ code ∈ codes, ReachesRule reg code r := by
  intro codes
  induction codes with
  | nil =>
    intro visited results s v' h r hr
    rw [getRulesLoop] at h
    simp only [Except.ok.injEq, Prod.mk.injEq] at h
    obtain ⟨rfl, rfl⟩ := h
    exact Or.inl hr
  | cons code rest ih =>
    intro visited results s v' h r hr
    rw [getRulesLoop] at h
    cases hfc_eq : fc code visited with
    | error e => simp [hfc_eq] at h
    | ok sv =>
      obtain ⟨s1, v1⟩ := sv
      simp only [hfc_eq] at h
      rcases ih v1 _ s v' h r hr with hacc | ⟨c2, hc2, hreach⟩
      · rcases mem_foldl_addRule.mp hacc with hres | hs1
        · exact Or.inl hres
        · exact Or.inr
            ⟨code, List.mem_cons_self _ _, hsound _ _ _ _ hfc_eq r hs1⟩
      · exact Or.inr ⟨c2, List.mem_cons_of_mem _ hc2, hreach⟩

theorem getRulesForCode_sound (reg : LintRegistry) :
    ∀ (fuel : Nat) (code : String) (v : List String) (s : List Rule)
      (v' : List String),
      getRulesForCode reg fuel code v = .ok (s, v') →
      ∀ r ∈ s, ReachesRule reg code r := by
  intro fuel
  induction fuel with
  | zero =>
    intro code v s v' h r hr
    simp only [getRulesForCode] at h
    cases hl : reg.all.lookup code with
    | none => simp [hl] at h
    | some entry =>
      cases entry with
      | rule r0 =>
        simp only [hl] at h
        simp only [Except.ok.injEq, Prod.mk.injEq] at h
        obtain ⟨rfl, rfl⟩ := h
        obtain rfl := List.mem_singleton.mp hr
        exact ⟨code, .refl code, hl⟩
      | collection c => simp [hl] at h
  | succ fuel ih =>
    intro code v s v' h r hr
    simp only [getRulesForCode] at h
    cases hl : reg.all.lookup code with
    | none => simp [hl] at h
    | some entry =>
      cases entry with
      | rule r0 =>
        simp only [hl] at h
        simp only [Except.ok.injEq, Prod.mk.injEq] at h
        obtain ⟨rfl, rfl⟩ := h
        obtain rfl := List.mem_singleton.mp hr
        exact ⟨code, .refl code, hl⟩
      | collection c =>
        simp only [hl] at h
        rcases getRulesLoop_sound reg _
            (fun code v s v' h => ih code v s v' h) _ _ _ _ _ h r hr with
          h0 | ⟨m, hm, c2, hreach, hrule⟩
        · exact absurd h0 (List.not_mem_nil r)
        · exact ⟨c2, .step hl (List.mem_filter.mp hm).1 hreach, hrule⟩

theorem getRulesLoop_error_char (reg : LintRegistry)
    (fc : String → List String →
      Except RegistryError (List Rule × List String))
    (herr : ∀ code v e, fc code v = .error e →
      e = .outOfFuel ∨ ∃ c', e = .notFound c' ∧ ReachesCode reg code c' ∧
        reg.all.lookup c' = none) :
    ∀ (codes visited : List String) (results : List Rule)
      (e : RegistryError),
      getRulesLoop fc codes visited results = .error e →
      e = .outOfFuel ∨ ∃ code ∈ codes, ∃ c', e = .notFound c' ∧
        ReachesCode reg code c' ∧ reg.all.lookup c' = none := by
  intro codes
  induction codes with
  | nil =>
    intro visited results e h
    rw [getRulesLoop] at h
    cases h
  | cons code rest ih =>
    intro visited results e h
    rw [getRulesLoop] at h
    cases hfc_eq : fc code visited with
    | error e2 =>
      simp only [hfc_eq] at h
      obtain rfl := Except.error.inj h
      rcases herr _ _ _ hfc_eq with h0 | ⟨c', hc1, hc2, hc3⟩
      · exact Or.inl h0
      · exact Or.inr ⟨code, List.mem_cons_self _ _, c', hc1, hc2, hc3⟩
    | ok sv =>
      obtain ⟨s1, v1⟩ := sv
      simp only [hfc_eq] at h
      rcases ih v1 _ e h with h0 | ⟨c2, hc2, hrest⟩
      · exact Or.inl h0
      · exact Or.inr ⟨c2, List.mem_cons_of_mem _ hc2, hrest⟩

theorem getRulesForCode_error_char (reg : LintRegistry) :
    ∀ (fuel : Nat) (code : String) (v : List String) (e : RegistryError),
      getRulesForCode reg fuel code v = .error e →
      e = .outOfFuel ∨ ∃ c', e = .notFound c' ∧ ReachesCode reg code c' ∧
        reg.all.lookup c' = none := by
  intro fuel
  induction fuel with
  | zero =>
    intro code v e h
    simp only [getRulesForCode] at h
    cases hl : reg.all.lookup code with
    | none =>
      simp only [hl] at h
      obtain rfl := Except.error.inj h
      exact Or.inr ⟨code, rfl, .refl code, hl⟩
    | some entry =>
      cases entry with
      | rule r => simp [hl] at h
      | collection c =>
        simp only [hl] at h
        obtain rfl := Except.error.inj h
        exact Or.inl rfl
  | succ fuel ih =>
    intro code v e h
    simp only [getRulesForCode] at h
    cases hl : reg.all.lookup code with
    | none =>
      simp only [hl] at h
      obtain rfl := Except.error.inj h
      exact Or.inr ⟨code, rfl, .refl code, hl⟩
    | some entry =>
      cases entry with
      | rule r => simp [hl] at h
      | collection c =>
        simp only [hl] at h
        rcases getRulesLoop_error_char reg _
            (fun code v e h => ih code v e h) _ _ _ _ h with
          h0 | ⟨m, hm, c', hc1, hc2, hc3⟩
        · exact Or.inl h0
        · exact Or.inr ⟨c', hc1, .step hl (List.mem_filter.mp hm).1 hc2, hc3⟩

theorem getRulesLoop_no_fuel (reg : LintRegistry) (U : Finset String)
    (v₀ : List String)
    (fc : String → List String →
      Except RegistryError (List Rule × List String))
    (hmono : ∀ code v s v', fc code v = .ok (s, v') → ∀ x ∈ v, x ∈ v')
    (hnf : ∀ code v, (∀ x ∈ v₀, x ∈ v) → code ∉ v₀ → code ∈ U →
      fc code v ≠ .error .outOfFuel) :
    ∀ (codes visited : List String) (results : List Rule),
      (∀ x ∈ v₀, x ∈ visited) →
      (∀ code ∈ codes, code ∉ v₀ ∧ code ∈ U) →
      getRulesLoop fc codes visited results ≠ .error .outOfFuel := by
  intro codes
  induction codes with
  | nil =>
    intro visited results _ _ h
    rw [getRulesLoop] at h
    cases h
  | cons code rest ih =>
    intro visited results hsub hcodes h
    rw [getRulesLoop] at h
    cases hfc_eq : fc code visited with
    | error e =>
      simp only [hfc_eq] at h
      obtain rfl := Except.error.inj h
      exact hnf code visited hsub (hcodes code (List.mem_cons_self _ _)).1
        (hcodes code (List.mem_cons_self _ _)).2 hfc_eq
    | ok sv =>
      obtain ⟨s1, v1⟩ := sv
      simp only [hfc_eq] at h
      exact ih v1 _
        (fun x hx => hmono _ _ _ _ hfc_eq x (hsub x hx))
        (fun c hc => hcodes c (List.mem_cons_of_mem _ hc)) h

theorem getRulesForCode_no_fuel (reg : LintRegistry) (U : Finset String)
    (hU : ∀ code c, reg.all.lookup code = some (.collection c) →
      ∀ m ∈ c.rules, m ∈ U) :
    ∀ (fuel : Nat) (v₀ : List String) (code : String) (v : List String),
      (∀ x ∈ v₀, x ∈ v) → code ∉ v₀ → code ∈ U →
      (U.filter fun x => x ∉ v₀).card < fuel →
      getRulesForCode reg fuel code v ≠ .error .outOfFuel := by
  intro fuel
  induction fuel with
  | zero =>
    intro v₀ code v _ _ _ hcard
    exact absurd hcard (Nat.not_lt_zero _)
  | succ fuel ih =>
    intro v₀ code v hsub hnv hcU hcard h
    simp only [getRulesForCode] at h
    cases hl : reg.all.lookup code with
    | none =>
      simp only [hl] at h
      exact RegistryError.noConfusion (Except.error.inj h)
    | some entry =>
      cases entry with
      | rule r =>
        simp only [hl] at h
        exact Except.noConfusion h
      | collection c =>
        simp only [hl] at h
        have hmemfilter : code ∈ U.filter fun x => x ∉ v₀ :=
          Finset.mem_filter.mpr ⟨hcU, hnv⟩
        have hcard2 : (U.filter fun x => x ∉ v₀ ++ [code]).card < fuel := by
          have hsubf : (U.filter fun x => x ∉ v₀ ++ [code]) ⊆
              (U.filter fun x => x ∉ v₀).erase code := by
            intro y hy
            obtain ⟨hyU, hyn⟩ := Finset.mem_filter.mp hy
            rw [List.mem_append] at hyn
            push_neg at hyn
            refine Finset.mem_erase.mpr
              ⟨by simpa using hyn.2, Finset.mem_filter.mpr ⟨hyU, hyn.1⟩⟩
          have h1 := Finset.card_le_card hsubf
          have h2 := Finset.card_erase_of_mem hmemfilter
          have h3 : 1 ≤ (U.filter fun x => x ∉ v₀).card :=
            Finset.card_pos.mpr ⟨code, hmemfilter⟩
          omega
        have hsub2 : ∀ x ∈ v₀ ++ [code],
            x ∈ (if code ∈ v then v else v ++ [code]) := by
          intro x hx
          rcases List.mem_append.mp hx with h1 | h1
          · exact mem_insertVisited (hsub x h1)
          · obtain rfl := List.mem_singleton.mp h1
            exact self_mem_insertVisited x v
        have hcodes2 : ∀ m ∈ (c.rules.filter fun p =>
            ¬ p ∈ (if code ∈ v then v else v ++ [code])),
            m ∉ v₀ ++ [code] ∧ m ∈ U := by
          intro m hm
          obtain ⟨hmc, hmv⟩ := List.mem_filter.mp hm
          have hmnv : m ∉ (if code ∈ v then v else v ++ [code]) := by
            simpa using hmv
          constructor
          · intro hmem
            rcases List.mem_append.mp hmem with h1 | h1
            · exact hmnv (mem_insertVisited (hsub m h1))
            · obtain rfl := List.mem_singleton.mp h1
              exact hmnv (self_mem_insertVisited m v)
          · exact hU code c hl m hmc
        exact getRulesLoop_no_fuel reg U (v₀ ++ [code])
          (getRulesForCode reg fuel)
          (fun c2 v2 s2 v2' h2 =>
            getRulesForCode_visited_mono reg fuel c2 v2 s2 v2' h2)
          (fun c2 v2 hs2 hn2 hU2 => ih (v₀ ++ [code]) c2 v2 hs2 hn2 hU2 hcard2)
          _ _ [] hsub2 hcodes2 h

theorem mem_allMemberCodes {reg : LintRegistry} {code : String}
    {c : RuleCollection} (hl : reg.all.lookup code = some (.collection c)) :
    ∀ m ∈ c.rules, m ∈ allMemberCodes reg := by
  intro m hm
  rw [allMemberCodes]
  exact List.mem_flatMap.mpr ⟨(code, .collection c), lookup_mem hl, hm⟩

theorem getRulesAux_no_fuel (reg : LintRegistry) (codes : List String) :
    getRulesAux reg (fuelBound reg codes) codes [] ≠ .error .outOfFuel := by
  have hU : ∀ code c, reg.all.lookup code = some (.collection c) →
      ∀ m ∈ c.rules, m ∈ (codes ++ allMemberCodes reg).toFinset := by
    intro code c hl m hm
    exact List.mem_toFinset.mpr
      (List.mem_append.mpr (Or.inr (mem_allMemberCodes hl m hm)))
  have hcard : ((codes ++ allMemberCodes reg).toFinset.filter
      fun x => x ∉ ([] : List String)).card < fuelBound reg codes := by
    have h1 : ((codes ++ allMemberCodes reg).toFinset.filter
        fun x => x ∉ ([] : List String)) =
        (codes ++ allMemberCodes reg).toFinset :=
      Finset.filter_true_of_mem fun x _ => List.not_mem_nil x
    rw [h1, fuelBound]
    have h2 := List.toFinset_card_le (codes ++ allMemberCodes reg)
    omega
  rw [getRulesAux]
  exact getRulesLoop_no_fuel reg ((codes ++ allMemberCodes reg).toFinset) []
    (getRulesForCode reg (fuelBound reg codes))
    (fun c2 v2 s2 v2' h2 =>
      getRulesForCode_visited_mono reg _ c2 v2 s2 v2' h2)
    (fun c2 v2 hs2 hn2 hU2 =>
      getRulesForCode_no_fuel reg _ hU (fuelBound reg codes) [] c2 v2
        (by simp) hn2 hU2 hcard)
    _ _ []
    (by simp)
    (fun code hcode =>
      ⟨List.not_mem_nil code,
        List.mem_toFinset.mpr
          (List.mem_append.mpr (Or.inl (List.mem_filter.mp hcode).1))⟩)

theorem getRulesAux_ok_spec (reg : LintRegistry) (fuel : Nat)
    (codes : List String) (s : List Rule) (V : List String)
    (h : getRulesAux reg fuel codes [] = .ok (s, V)) :
    (∀ code ∈ codes, code ∈ V) ∧
    (∀ x ∈ V,
      (∀ r, reg.all.lookup x = some (.rule r) → r ∈ s) ∧
      (∀ c, reg.all.lookup x = some (.collection c) →
        ∀ m ∈ c.rules, m ∈ V) ∧
      (reg.all.lookup x).isSome = true) ∧
    ∀ r ∈ s, ∃ code ∈ codes, ReachesRule reg code r := by
  rw [getRulesAux] at h
  have hmono := fun c2 v2 s2 v2' h2 =>
    getRulesForCode_visited_mono reg fuel c2 v2 s2 v2' h2
  obtain ⟨hcodes, _, hclosure⟩ :=
    getRulesLoop_post reg _ hmono
      (fun c2 v2 s2 v2' h2 => getRulesForCode_post reg fuel c2 v2 s2 v2' h2)
      _ _ _ _ _ h
  refine ⟨?_, ?_, ?_⟩
  · intro code hc
    exact hcodes code (List.mem_filter.mpr ⟨hc, by simp⟩)
  · intro x hx
    exact hclosure x hx (List.not_mem_nil x)
  · intro r hr
    rcases getRulesLoop_sound reg _
        (fun c2 v2 s2 v2' h2 =>
          getRulesForCode_sound reg fuel c2 v2 s2 v2' h2)
        _ _ _ _ _ h r hr with h0 | ⟨code, hcode, hreach⟩
    · exact absurd h0 (List.not_mem_nil r)
    · exact ⟨code, (List.mem_filter.mp hcode).1, hreach⟩

theorem reaches_mem_closed (reg : LintRegistry) (s : List Rule)
    (V : List String)
    (hclo : ∀ x ∈ V,
      (∀ r, reg.all.lookup x = some (.rule r) → r ∈ s) ∧
      (∀ c, reg.all.lookup x = some (.collection c) →
        ∀ m ∈ c.rules, m ∈ V) ∧
      (reg.all.lookup x).isSome = true) :
    ∀ (x t : String), ReachesCode reg x t → x ∈ V → t ∈ V := by
  intro x t h
  induction h with
  | refl code => exact fun hx => hx
  | step hl hm hr ih =>
    intro hx
    exact ih ((hclo _ hx).2.1 _ hl _ hm)

theorem getRules_ok_char (reg : LintRegistry) (codes : List String)
    (s : List Rule) (h : getRules reg codes = .ok s) :
    (∀ r, r ∈ s ↔ ∃ code ∈ codes, ReachesRule reg code r) ∧
    ∀ code ∈ codes, Resolvable reg code := by
  rw [getRules] at h
  cases haux : getRulesAux reg (fuelBound reg codes) codes [] with
  | error e =>
    rw [haux] at h
    cases h
  | ok sv =>
    obtain ⟨s0, V⟩ := sv
    rw [haux] at h
    obtain rfl := Except.ok.inj h
    obtain ⟨hcodes, hclosure, hsound⟩ :=
      getRulesAux_ok_spec reg _ codes _ _ haux
    constructor
    · intro r
      constructor
      · exact hsound r
      · rintro ⟨code, hcode, c', hreach, hrule⟩
        have hcV : c' ∈ V :=
          reaches_mem_closed reg _ V hclosure code c' hreach
            (hcodes code hcode)
        exact (hclosure c' hcV).1 _ hrule
    · intro code hcode c' hreach
      have hcV : c' ∈ V :=
        reaches_mem_closed reg _ V hclosure code c' hreach
          (hcodes code hcode)
      exact (hclosure c' hcV).2.2

theorem getRules_error_reason (reg : LintRegistry) (codes : List String)
    (e : RegistryError) (h : getRules reg codes = .error e) :
    ∃ code ∈ codes, ∃ c', e = .notFound c' ∧ ReachesCode reg code c' ∧
      reg.all.lookup c' = none := by
  rw [getRules] at h
  cases haux : getRulesAux reg (fuelBound reg codes) codes [] with
  | ok sv =>
    obtain ⟨s0, V⟩ := sv
    rw [haux] at h
    cases h
  | error e2 =>
    rw [haux] at h
    obtain rfl := Except.error.inj h
    have hnf := getRulesAux_no_fuel reg codes
    have haux2 := haux
    rw [getRulesAux] at haux2
    rcases getRulesLoop_error_char reg _
        (fun c2 v2 e3 h2 => getRulesForCode_error_char reg _ c2 v2 e3 h2)
        _ _ _ _ haux2 with h0 | ⟨code, hcode, c', hc1, hc2, hc3⟩
    · subst h0
      exact absurd haux hnf
    · exact ⟨code, (List.mem_filter.mp hcode).1, c', hc1, hc2, hc3⟩

/-- C7: resolution always completes, also on cyclic collection graphs: for
every registry state and requested codes, `getRules` never exhausts its fuel
budget — it yields a result set or a genuine not-found error for a reachable
unregistered code — and the directly self-listing collection resolves to the
empty set. -/
theorem getRules_terminates :
    (∀ (reg : LintRegistry) (codes : List String),
      (∃ rules, getRules reg codes = .ok rules) ∨
        ∃ code ∈ codes, ∃ c', getRules reg codes = .error (.notFound c') ∧
          ReachesCode reg code c' ∧ reg.all.lookup c' = none) ∧
    getRules exRegCyclic ["c"] = .ok [] := by
  constructor
  · intro reg codes
    cases h : getRules reg codes with
    | ok rules => exact Or.inl ⟨rules, rfl⟩
    | error e =>
      obtain ⟨code, hcode, c', hc1, hc2, hc3⟩ :=
        getRules_error_reason reg codes e h
      subst hc1
      exact Or.inr ⟨code, hcode, c', rfl, hc2, hc3⟩
  · rfl

theorem reachesRule_collection_iff (reg : LintRegistry) (code : String)
    (c : RuleCollection) (hl : reg.all.lookup code = some (.collection c))
    (r : Rule) :
    ReachesRule reg code r ↔ ∃ m ∈ c.rules, ReachesRule reg m r := by
  constructor
  · rintro ⟨c', hreach, hrule⟩
    cases hreach with
    | refl => exact Entry.noConfusion (Option.some.inj (hl.symm.trans hrule))
    | step hl2 hm2 hr2 =>
      rename_i c2 m2
      obtain rfl := Entry.collection.inj (Option.some.inj (hl2.symm.trans hl))
      exact ⟨m2, hm2, c', hr2, hrule⟩
  · rintro ⟨m, hm, c', hreach, hrule⟩
    exact ⟨c', .step hl hm hreach, hrule⟩

/-- C6: registry resolution is order-independent and expansion-invariant:
two requests over the same set of codes resolve to the same set of rules,
and requesting a collection's code resolves to the same set as requesting
its member codes. -/
theorem getRules_order_and_expansion_invariant :
    (∀ (reg : LintRegistry) (codes₁ codes₂ : List String)
        (s₁ s₂ : List Rule),
      (∀ c, c ∈ codes₁ ↔ c ∈ codes₂) →
      getRules reg codes₁ = .ok s₁ → getRules reg codes₂ = .ok s₂ →
      ∀ r, r ∈ s₁ ↔ r ∈ s₂) ∧
    (∀ (reg : LintRegistry) (code : String) (c : RuleCollection)
        (s₁ s₂ : List Rule),
      reg.all.lookup code = some (.collection c) →
      getRules reg [code] = .ok s₁ → getRules reg c.rules = .ok s₂ →
      ∀ r, r ∈ s₁ ↔ r ∈ s₂) := by
  constructor
  · intro reg codes₁ codes₂ s₁ s₂ hperm h1 h2 r
    rw [(getRules_ok_char reg codes₁ s₁ h1).1 r,
      (getRules_ok_char reg codes₂ s₂ h2).1 r]
    constructor
    · rintro ⟨code, hcode, hreach⟩
      exact ⟨code, (hperm code).mp hcode, hreach⟩
    · rintro ⟨code, hcode, hreach⟩
      exact ⟨code, (hperm code).mpr hcode, hreach⟩
  · intro reg code c s₁ s₂ hl h1 h2 r
    rw [(getRules_ok_char reg [code] s₁ h1).1 r,
      (getRules_ok_char reg c.rules s₂ h2).1 r]
    constructor
    · rintro ⟨code2, hcode2, hreach⟩
      obtain rfl := List.mem_singleton.mp hcode2
      exact (reachesRule_collection_iff reg code2 c hl r).mp hreach
    · rintro ⟨m, hm, hreach⟩
      exact ⟨code, List.mem_singleton.mpr rfl,
        (reachesRule_collection_iff reg code c hl r).mpr ⟨m, hm, hreach⟩⟩

theorem getRules_order_and_expansion_invariant_witness :
    (⟨"a", "da"⟩ : Rule) ∈ ([⟨"a", "da"⟩, ⟨"b", "db"⟩] : List Rule) ↔
      (⟨"a", "da"⟩ : Rule) ∈ ([⟨"b", "db"⟩, ⟨"a", "da"⟩] : List Rule) :=
  getRules_order_and_expansion_invariant.1 exRegistry ["a", "b"] ["b", "a"]
    [⟨"a", "da"⟩, ⟨"b", "db"⟩] [⟨"b", "db"⟩, ⟨"a", "da"⟩]
    (by
      intro c
      simp only [List.mem_cons, List.not_mem_nil, or_false]
      tauto)
    (by rfl) (by rfl) ⟨"a", "da"⟩

theorem lookup_append_of_none {l₁ l₂ : List (String × Entry)} {k : String}
    (h : l₁.lookup k = none) : (l₁ ++ l₂).lookup k = l₂.lookup k := by
  induction l₁ with
  | nil => rfl
  | cons p rest ih =>
    obtain ⟨k1, v1⟩ := p
    by_cases hk : (k == k1) = true
    · simp only [List.lookup, hk] at h
      exact Option.noConfusion h
    · rw [Bool.not_eq_true] at hk
      simp only [List.lookup, hk] at h
      rw [List.cons_append]
      simp only [List.lookup, hk]
      exact ih h

theorem register_duplicate {reg : LintRegistry} {entry : Entry} {e0 : Entry}
    (hl : reg.all.lookup entry.code = some e0) :
    register reg entry = .error (.duplicate entry.code) := by
  rw [register.eq_def, hl]

theorem register_rule {reg : LintRegistry} {r : Rule}
    (hl : reg.all.lookup (Entry.rule r).code = none) :
    register reg (.rule r) =
      .ok ⟨reg.all ++ [((Entry.rule r).code, .rule r)]⟩ := by
  rw [register.eq_def, hl]

theorem register_collection {reg : LintRegistry} {c : RuleCollection}
    (hl : reg.all.lookup (Entry.collection c).code = none) :
    register reg (.collection c) =
      match getRules reg c.rules with
      | .error e => .error e
      | .ok _ =>
        .ok ⟨reg.all ++ [((Entry.collection c).code, .collection c)]⟩ := by
  rw [register.eq_def, hl]

/-- C8: `register` fails exactly when the code is already present or the
argument is a collection with a member that does not transitively resolve to
registered entries; otherwise the entry is inserted under its code. -/
theorem register_error_characterization :
    (∀ (reg : LintRegistry) (entry : Entry),
      (∃ e, register reg entry = .error e) ↔
        ((reg.all.lookup entry.code).isSome = true ∨
          ∃ c, entry = .collection c ∧
            ∃ m ∈ c.rules, ¬ Resolvable reg m)) ∧
    (∀ (reg : LintRegistry) (entry : Entry) (reg' : LintRegistry),
      register reg entry = .ok reg' →
        reg'.all.lookup entry.code = some entry) := by
  constructor
  · intro reg entry
    constructor
    · rintro ⟨e, he⟩
      cases hl : reg.all.lookup entry.code with
      | some e0 => exact Or.inl rfl
      | none =>
        cases entry with
        | rule r =>
          rw [register_rule hl] at he
          exact Except.noConfusion he
        | collection c =>
          rw [register_collection hl] at he
          cases hg : getRules reg c.rules with
          | ok s =>
            rw [hg] at he
            exact Except.noConfusion he
          | error e2 =>
            obtain ⟨code, hcode, c', hc1, hc2, hc3⟩ :=
              getRules_error_reason reg c.rules e2 hg
            refine Or.inr ⟨c, rfl, code, hcode, ?_⟩
            intro hres
            have hs := hres c' hc2
            rw [hc3] at hs
            cases hs
    · intro hcases
      rcases hcases with hsome | ⟨c, rfl, m, hm, hnres⟩
      · obtain ⟨e0, he0⟩ := Option.isSome_iff_exists.mp hsome
        exact ⟨.duplicate entry.code, register_duplicate he0⟩
      · cases hl : reg.all.lookup (Entry.collection c).code with
        | some e0 => exact ⟨.duplicate _, register_duplicate hl⟩
        | none =>
          cases hg : getRules reg c.rules with
          | error e2 =>
            refine ⟨e2, ?_⟩
            rw [register_collection hl, hg]
          | ok s =>
            exact absurd ((getRules_ok_char reg c.rules s hg).2 m hm) hnres
  · intro reg entry reg' h
    cases hl : reg.all.lookup entry.code with
    | some e0 =>
      rw [register_duplicate hl] at h
      exact Except.noConfusion h
    | none =>
      cases entry with
      | rule r =>
        rw [register_rule hl] at h
        obtain rfl := Except.ok.inj h
        rw [lookup_append_of_none hl]
        simp [List.lookup]
      | collection c =>
        rw [register_collection hl] at h
        cases hg : getRules reg c.rules with
        | error e2 =>
          rw [hg] at h
          exact Except.noConfusion h
        | ok s =>
          rw [hg] at h
          obtain rfl := Except.ok.inj h
          rw [lookup_append_of_none hl]
          simp [List.lookup]

theorem register_error_characterization_witness :
    (⟨exRegistry.all ++ [("z", Entry.rule ⟨"z", "dz"⟩)]⟩ :
        LintRegistry).all.lookup (Entry.rule ⟨"z", "dz"⟩).code =
      some (.rule ⟨"z", "dz"⟩) :=
  register_error_characterization.2 exRegistry (.rule ⟨"z", "dz"⟩)
    ⟨exRegistry.all ++ [("z", Entry.rule ⟨"z", "dz"⟩)]⟩ (by rfl)

end Registry

end PolymerLint
